import Mathlib

/-!
# Verification of the gzipbuilder stream-assembly state machine

A shallow embedding of `builder.go` from the gzipbuilder package: the
incremental GZIP/DEFLATE stream builder, its stored-block framer with
back-patching, and the CRC32/ISIZE bookkeeping.  Bytes are modelled as
`Nat` (values `< 256` where relevant), machine integers as `Nat` with
explicit `% 2^w` at the points where the Go code truncates or wraps,
and the external DEFLATE encoder as an abstract `Encoder` record.
-/

namespace gzipbuilder

/-! ## CRC32 (IEEE, reflected), as in Go `hash/crc32`

`crc32.Update(crc, IEEETable, p)` is the table-driven point update: the
table entry for index `i` is eight rounds of the reflected bit step on
`i`, and the byte step is `tab[byte(crc)^b] ^ (crc >> 8)` inside the
pre/post complement. -/

/-- The IEEE polynomial in reflected form, `crc32.IEEE` in Go. -/
def crc32IEEE : Nat := 0xedb88320

/-- One reflected CRC bit round for polynomial `poly`: shift right one
bit and conditionally XOR the polynomial, as in `hash/crc32.simpleMakeTable`. -/
def crcBitStep (poly c : Nat) : Nat :=
  if c % 2 = 1 then (c >>> 1) ^^^ poly else c >>> 1

/-- Entry `i` of the table-driven CRC table: eight bit rounds applied to `i`. -/
def crcTableEntry (poly i : Nat) : Nat :=
  (crcBitStep poly)^[8] i

/-- One table-driven byte update without the pre/post complement:
`tab[byte(crc)^b] ^ (crc >> 8)` from `hash/crc32.simpleUpdate`. -/
def crcByteStep (poly c b : Nat) : Nat :=
  (c >>> 8) ^^^ crcTableEntry poly ((c % 256) ^^^ (b % 256))

/-- `crc32.Update(crc, crc32.IEEETable, data)`: complement, fold the byte
step over the data, complement again. -/
def crc32Update (crc : Nat) (data : List Nat) : Nat :=
  (data.foldl (crcByteStep crc32IEEE) (crc ^^^ 0xffffffff)) ^^^ 0xffffffff

/-- `crc32.Checksum(data, crc32.IEEETable)`: the IEEE CRC32 of a byte
sequence, i.e. the update starting from zero. -/
def crc32 (data : List Nat) : Nat := crc32Update 0 data

/-! ## CRC32 combiner

The repository's `combineCRC32` / `precomputeCRC32` live in a source
file that is not part of the provided sources; only their call sites in
`builder.go` are visible.  They are therefore modelled from the spec
(§4.3): a 32×32 GF(2) matrix is a list of 32 column vectors packed into
`Nat`s, matrix–vector product XORs together the columns selected by the
set bits of the vector, squaring is column-wise re-application, and the
combiner raises the "shift by one zero byte" matrix to the `len`-th
power by square-and-multiply over the precomputed `M^(2^k)` table. -/

/-- Modelled from the spec: GF(2) matrix–vector product.  The matrix is
a list of column vectors (column `k` multiplies bit `k` of the vector);
the product is the XOR of the columns at the set bits. -/
def gf2MatTimes : List Nat → Nat → Nat
  | [], _ => 0
  | m :: ms, v => (if v % 2 = 1 then m else 0) ^^^ gf2MatTimes ms (v / 2)

/-- Modelled from the spec: GF(2) matrix squaring, column by column. -/
def gf2MatSquare (mat : List Nat) : List Nat :=
  mat.map (gf2MatTimes mat)

/-- Modelled from the spec: the 32×32 matrix representing "advance the
raw CRC state by one zero byte" — column `i` is the byte step applied
to the `i`-th basis vector. -/
def crc32ZeroByteMat (poly : Nat) : List Nat :=
  (List.range 32).map (fun i => crcByteStep poly (1 <<< i) 0)

/-- Modelled from the spec: the chain `M, M², M⁴, …` of `k` repeated
squarings of a matrix. -/
def matSquares : Nat → List Nat → List (List Nat)
  | 0, _ => []
  | k + 1, m => m :: matSquares k (gf2MatSquare m)

/-- Modelled from the spec: `precomputeCRC32(poly)` — the per-process
table of the 64 squarings `M^(2^k)`, `k = 0 … 63`, of the zero-byte
shift matrix (the missing source file computes this once at init). -/
def precomputeCRC32 (poly : Nat) : List (List Nat) :=
  matSquares 64 (crc32ZeroByteMat poly)

/-- `crc32Mat`, the package-level table passed to every `combineCRC32`
call in `builder.go`. -/
def crc32Mat : List (List Nat) := precomputeCRC32 crc32IEEE

/-- Modelled from the spec: the square-and-multiply loop of the
combiner — for each set bit `k` of `len`, multiply the running vector
by `M^(2^k)`. -/
def combineLoop : List (List Nat) → Nat → Nat → Nat
  | [], v, _ => v
  | m :: ms, v, n => combineLoop ms (if n % 2 = 1 then gf2MatTimes m v else v) (n / 2)

/-- Modelled from the spec: `combineCRC32(mats, crcA, crcB, lenB)` —
shift `crcA` forward by `lenB` zero bytes using the precomputed matrix
powers and XOR in `crcB`. -/
def combineCRC32 (mats : List (List Nat)) (crcA crcB len : Nat) : Nat :=
  combineLoop mats crcA len ^^^ crcB

/-! ## XOR toolkit -/

theorem xor_left_comm (a b c : Nat) : a ^^^ (b ^^^ c) = b ^^^ (a ^^^ c) := by
  rw [← Nat.xor_assoc, Nat.xor_comm a b, Nat.xor_assoc]

theorem xor_shiftRight_distrib (x y n : Nat) :
    (x ^^^ y) >>> n = x >>> n ^^^ y >>> n := by
  apply Nat.eq_of_testBit_eq
  intro i
  simp [Nat.testBit_shiftRight, Nat.testBit_xor]

theorem xor_mod_two_pow (x y n : Nat) :
    (x ^^^ y) % 2 ^ n = x % 2 ^ n ^^^ y % 2 ^ n := by
  apply Nat.eq_of_testBit_eq
  intro i
  by_cases h : i < n <;> simp [Nat.testBit_mod_two_pow, Nat.testBit_xor, h]

theorem xor_mod_256 (x y : Nat) : (x ^^^ y) % 256 = x % 256 ^^^ y % 256 := by
  have h := xor_mod_two_pow x y 8
  norm_num at h
  exact h

theorem xor_shiftLeft_distrib (x y n : Nat) :
    (x ^^^ y) <<< n = x <<< n ^^^ y <<< n := by
  apply Nat.eq_of_testBit_eq
  intro i
  by_cases h : i ≥ n <;> simp [Nat.testBit_shiftLeft, Nat.testBit_xor, h]

/-- A number splits as the XOR of its even part and its low bit. -/
theorem two_mul_div_two_xor_mod_two (v : Nat) : 2 * (v / 2) ^^^ v % 2 = v := by
  apply Nat.eq_of_testBit_eq
  intro i
  rw [Nat.testBit_xor]
  match i with
  | 0 =>
    simp only [Nat.testBit_zero]
    have h2 : 2 * (v / 2) % 2 = 0 := Nat.mul_mod_right 2 _
    have h3 : v % 2 % 2 = v % 2 := by omega
    rw [h2, h3]
    rcases Nat.mod_two_eq_zero_or_one v with h | h <;> rw [h] <;> rfl
  | i + 1 =>
    simp only [Nat.testBit_succ]
    have h2 : 2 * (v / 2) / 2 = v / 2 := by omega
    have h3 : v % 2 / 2 = 0 := by omega
    rw [h2, h3]
    simp

theorem shiftRight_lt_two_pow {c n : Nat} (h : c < 2 ^ n) (k : Nat) :
    c >>> k < 2 ^ n :=
  lt_of_le_of_lt (by rw [Nat.shiftRight_eq_div_pow]; exact Nat.div_le_self _ _) h

/-! ## CRC32 theory: linearity, bounds, and the append law -/

theorem crcBitStep_xor (poly x y : Nat) :
    crcBitStep poly (x ^^^ y) = crcBitStep poly x ^^^ crcBitStep poly y := by
  unfold crcBitStep
  have hxy : (x ^^^ y) % 2 = (x + y) % 2 := Nat.xor_mod_two_eq
  rcases Nat.mod_two_eq_zero_or_one x with hx | hx <;>
    rcases Nat.mod_two_eq_zero_or_one y with hy | hy
  · rw [if_neg (by omega), if_neg (by omega), if_neg (by omega), xor_shiftRight_distrib]
  · rw [if_pos (by omega), if_neg (by omega), if_pos (by omega), xor_shiftRight_distrib]
    simp [Nat.xor_assoc, Nat.xor_comm, xor_left_comm]
  · rw [if_pos (by omega), if_pos (by omega), if_neg (by omega), xor_shiftRight_distrib]
    simp [Nat.xor_assoc, Nat.xor_comm, xor_left_comm]
  · rw [if_neg (by omega), if_pos (by omega), if_pos (by omega), xor_shiftRight_distrib,
      Nat.xor_assoc (x >>> 1) poly, xor_left_comm poly (y >>> 1) poly,
      Nat.xor_self, Nat.xor_zero]

theorem crcBitStep_iterate_xor (poly n x y : Nat) :
    (crcBitStep poly)^[n] (x ^^^ y) =
      (crcBitStep poly)^[n] x ^^^ (crcBitStep poly)^[n] y := by
  induction n generalizing x y with
  | zero => rfl
  | succ n ih => rw [Function.iterate_succ_apply, Function.iterate_succ_apply,
      Function.iterate_succ_apply, crcBitStep_xor, ih]

theorem crcTableEntry_xor (poly x y : Nat) :
    crcTableEntry poly (x ^^^ y) = crcTableEntry poly x ^^^ crcTableEntry poly y :=
  crcBitStep_iterate_xor poly 8 x y

/-- Joint GF(2)-linearity of the raw byte step in the CRC state and the byte. -/
theorem crcByteStep_xor (poly c d b e : Nat) :
    crcByteStep poly (c ^^^ d) (b ^^^ e) =
      crcByteStep poly c b ^^^ crcByteStep poly d e := by
  unfold crcByteStep
  rw [xor_mod_256 c d, xor_mod_256 b e, xor_shiftRight_distrib,
    show c % 256 ^^^ d % 256 ^^^ (b % 256 ^^^ e % 256)
        = (c % 256 ^^^ b % 256) ^^^ (d % 256 ^^^ e % 256) by
      simp [Nat.xor_assoc, Nat.xor_comm, xor_left_comm],
    crcTableEntry_xor]
  simp [Nat.xor_assoc, Nat.xor_comm, xor_left_comm]

theorem crcBitStep_lt {poly c : Nat} (hp : poly < 2 ^ 32) (hc : c < 2 ^ 32) :
    crcBitStep poly c < 2 ^ 32 := by
  unfold crcBitStep
  split
  · exact Nat.xor_lt_two_pow (shiftRight_lt_two_pow hc 1) hp
  · exact shiftRight_lt_two_pow hc 1

theorem crcBitStep_iterate_lt {poly c : Nat} (hp : poly < 2 ^ 32)
    (hc : c < 2 ^ 32) (n : Nat) : (crcBitStep poly)^[n] c < 2 ^ 32 := by
  induction n generalizing c with
  | zero => exact hc
  | succ n ih => rw [Function.iterate_succ_apply]; exact ih (crcBitStep_lt hp hc)

theorem crcTableEntry_lt {poly i : Nat} (hp : poly < 2 ^ 32) (hi : i < 2 ^ 32) :
    crcTableEntry poly i < 2 ^ 32 :=
  crcBitStep_iterate_lt hp hi 8

theorem crcByteStep_lt {poly c : Nat} (hp : poly < 2 ^ 32) (hc : c < 2 ^ 32)
    (b : Nat) : crcByteStep poly c b < 2 ^ 32 := by
  unfold crcByteStep
  refine Nat.xor_lt_two_pow (shiftRight_lt_two_pow hc 8) (crcTableEntry_lt hp ?_)
  calc (c % 256) ^^^ (b % 256) < 2 ^ 8 :=
        Nat.xor_lt_two_pow (Nat.mod_lt _ (by norm_num)) (Nat.mod_lt _ (by norm_num))
    _ < 2 ^ 32 := by norm_num

/-- The raw CRC state advanced by one zero byte; the linear map whose
matrix the combiner exponentiates. -/
def crcShiftByte (c : Nat) : Nat := crcByteStep crc32IEEE c 0

theorem crc32IEEE_lt : crc32IEEE < 2 ^ 32 := by norm_num [crc32IEEE]

theorem crcShiftByte_xor (x y : Nat) :
    crcShiftByte (x ^^^ y) = crcShiftByte x ^^^ crcShiftByte y := by
  have h := crcByteStep_xor crc32IEEE x y 0 0
  simpa [crcShiftByte] using h

theorem crcShiftByte_lt {c : Nat} (hc : c < 2 ^ 32) : crcShiftByte c < 2 ^ 32 :=
  crcByteStep_lt crc32IEEE_lt hc 0

/-- Splitting the initial state of a CRC fold: the `d` component sees
only zero bytes, i.e. is advanced by `crcShiftByte` per input byte. -/
theorem foldl_crcByteStep_xor (B : List Nat) :
    ∀ c d, B.foldl (crcByteStep crc32IEEE) (c ^^^ d) =
      B.foldl (crcByteStep crc32IEEE) c ^^^ crcShiftByte^[B.length] d := by
  induction B with
  | nil => intro c d; simp
  | cons b B ih =>
    intro c d
    simp only [List.foldl_cons, List.length_cons]
    have h1 : crcByteStep crc32IEEE (c ^^^ d) b =
        crcByteStep crc32IEEE c b ^^^ crcShiftByte d := by
      have h := crcByteStep_xor crc32IEEE c d b 0
      simpa [crcShiftByte] using h
    rw [h1, ih, Function.iterate_succ_apply]

theorem foldl_crcByteStep_lt {c : Nat} (hc : c < 2 ^ 32) (B : List Nat) :
    B.foldl (crcByteStep crc32IEEE) c < 2 ^ 32 := by
  induction B generalizing c with
  | nil => exact hc
  | cons b B ih => exact ih (crcByteStep_lt crc32IEEE_lt hc b)

theorem crc32Update_lt {crc : Nat} (hc : crc < 2 ^ 32) (data : List Nat) :
    crc32Update crc data < 2 ^ 32 := by
  unfold crc32Update
  exact Nat.xor_lt_two_pow
    (foldl_crcByteStep_lt (Nat.xor_lt_two_pow hc (by norm_num)) data) (by norm_num)

theorem crc32_lt (data : List Nat) : crc32 data < 2 ^ 32 :=
  crc32Update_lt (by norm_num) data

/-- Incremental update law: updating a running CRC32 with more data is
the CRC32 of the concatenation. -/
theorem crc32Update_append (A B : List Nat) :
    crc32Update (crc32 A) B = crc32 (A ++ B) := by
  simp only [crc32, crc32Update, List.foldl_append]
  have hc : ∀ u : Nat, u ^^^ 0xffffffff ^^^ 0xffffffff = u := by
    intro u
    simp [Nat.xor_assoc, Nat.xor_self, Nat.xor_zero]
  rw [hc]

/-- The CRC32 of a concatenation: shift the left CRC forward by the
length of the right part and XOR in the right CRC. -/
theorem crc32_append (A B : List Nat) :
    crc32 (A ++ B) = crcShiftByte^[B.length] (crc32 A) ^^^ crc32 B := by
  simp only [crc32, crc32Update, List.foldl_append, Nat.zero_xor]
  generalize hu : List.foldl (crcByteStep crc32IEEE) 0xffffffff A = u
  have key := foldl_crcByteStep_xor B 0xffffffff (u ^^^ 0xffffffff)
  have hcancel : (0xffffffff : Nat) ^^^ (u ^^^ 0xffffffff) = u := by
    simp [Nat.xor_comm, Nat.xor_assoc, xor_left_comm, Nat.xor_self, Nat.xor_zero]
  rw [hcancel] at key
  rw [key]
  simp [Nat.xor_assoc, Nat.xor_comm, xor_left_comm]

/-! ## GF(2) matrices realise linear maps on 32-bit states -/

/-- A GF(2)-linear map on 32-bit CRC states that stays within 32 bits. -/
def IsLin32 (f : Nat → Nat) : Prop :=
  (∀ x y, f (x ^^^ y) = f x ^^^ f y) ∧ ∀ x, x < 2 ^ 32 → f x < 2 ^ 32

theorem IsLin32.map_zero {f : Nat → Nat} (hf : IsLin32 f) : f 0 = 0 := by
  have h := hf.1 0 0
  simp only [Nat.xor_zero] at h
  calc f 0 = f 0 ^^^ (f 0 ^^^ f 0) := by rw [Nat.xor_self, Nat.xor_zero]
    _ = 0 := by rw [← h, Nat.xor_self]

theorem IsLin32.comp {f : Nat → Nat} (hf : IsLin32 f) : IsLin32 (f ∘ f) :=
  ⟨fun x y => by simp only [Function.comp_apply, hf.1],
   fun x hx => hf.2 _ (hf.2 x hx)⟩

/-- The column matrix of a linear map: column `i` is the image of the
`i`-th basis vector. -/
def matOf (f : Nat → Nat) : List Nat :=
  (List.range 32).map (fun i => f (1 <<< i))

/-- A column matrix built from the images of the basis vectors computes
the linear map on every vector below the width.  Stated for an
arbitrary width to allow the inductive step to halve the vector. -/
theorem gf2MatTimes_basis (n : Nat) :
    ∀ (f : Nat → Nat), (∀ x y, f (x ^^^ y) = f x ^^^ f y) → f 0 = 0 →
      ∀ v, v < 2 ^ n →
        gf2MatTimes ((List.range n).map (fun i => f (1 <<< i))) v = f v := by
  induction n with
  | zero =>
    intro f _ hf0 v hv
    interval_cases v
    simpa [gf2MatTimes] using hf0.symm
  | succ n ih =>
    intro f hf hf0 v hv
    rw [List.range_succ_eq_map, List.map_cons, List.map_map]
    show (if v % 2 = 1 then f (1 <<< 0) else 0) ^^^ _ = f v
    have hmap : List.map ((fun i => f (1 <<< i)) ∘ Nat.succ) (List.range n)
        = List.map (fun i => (fun x => f (2 * x)) (1 <<< i)) (List.range n) := by
      refine List.map_congr_left fun a _ => ?_
      show f (1 <<< (a + 1)) = f (2 * (1 <<< a))
      congr 1
      simp [Nat.shiftLeft_eq, pow_succ]
      ring
    have hg : ∀ x y, (fun x => f (2 * x)) (x ^^^ y)
        = (fun x => f (2 * x)) x ^^^ (fun x => f (2 * x)) y := by
      intro x y
      show f (2 * (x ^^^ y)) = f (2 * x) ^^^ f (2 * y)
      have h2 : 2 * (x ^^^ y) = 2 * x ^^^ 2 * y := by
        have := xor_shiftLeft_distrib x y 1
        simpa [Nat.shiftLeft_eq, Nat.mul_comm] using this
      rw [h2, hf]
    have hg0 : (fun x => f (2 * x)) 0 = 0 := by simpa using hf0
    have hv2 : v / 2 < 2 ^ n := by
      have : (2:Nat) ^ (n+1) = 2 ^ n * 2 := by ring
      omega
    rw [hmap, ih (fun x => f (2 * x)) hg hg0 (v / 2) hv2]
    show (if v % 2 = 1 then f (1 <<< 0) else 0) ^^^ f (2 * (v / 2)) = f v
    have hsplit : f v = f (2 * (v / 2)) ^^^ f (v % 2) := by
      rw [← hf, two_mul_div_two_xor_mod_two]
    rcases Nat.mod_two_eq_zero_or_one v with h | h <;>
      rw [h] at hsplit ⊢
    · simp [hsplit, hf0, Nat.xor_comm]
    · simpa [Nat.xor_comm] using hsplit.symm

theorem gf2MatTimes_matOf {f : Nat → Nat} (hf : IsLin32 f) {v : Nat}
    (hv : v < 2 ^ 32) : gf2MatTimes (matOf f) v = f v :=
  gf2MatTimes_basis 32 f hf.1 hf.map_zero v hv

/-- Squaring the column matrix of `f` yields the column matrix of `f ∘ f`. -/
theorem gf2MatSquare_matOf {f : Nat → Nat} (hf : IsLin32 f) :
    gf2MatSquare (matOf f) = matOf (f ∘ f) := by
  unfold gf2MatSquare matOf
  rw [List.map_map]
  refine List.map_congr_left fun i hi => ?_
  have hib : (1 <<< i) < 2 ^ 32 := by
    rw [Nat.shiftLeft_eq, Nat.one_mul]
    exact Nat.pow_lt_pow_right (by norm_num) (List.mem_range.mp hi)
  show gf2MatTimes ((List.range 32).map (fun i => f (1 <<< i))) (f (1 <<< i))
      = (f ∘ f) (1 <<< i)
  exact gf2MatTimes_basis 32 f hf.1 hf.map_zero _ (hf.2 _ hib)

/-- The square-and-multiply loop over the `M^(2^k)` chain applies the
underlying linear map `n` times, for any exponent below `2^k`. -/
theorem combineLoop_matSquares (k : Nat) :
    ∀ (f : Nat → Nat), IsLin32 f → ∀ v n, v < 2 ^ 32 → n < 2 ^ k →
      combineLoop (matSquares k (matOf f)) v n = f^[n] v := by
  induction k with
  | zero =>
    intro f _ v n _ hn
    interval_cases n
    rfl
  | succ k ih =>
    intro f hf v n hv hn
    show combineLoop (matOf f :: matSquares k (gf2MatSquare (matOf f)))
      v n = f^[n] v
    rw [gf2MatSquare_matOf hf]
    show combineLoop (matSquares k (matOf (f ∘ f)))
      (if n % 2 = 1 then gf2MatTimes (matOf f) v else v) (n / 2) = f^[n] v
    have hv' : (if n % 2 = 1 then gf2MatTimes (matOf f) v else v) = f^[n % 2] v := by
      rcases Nat.mod_two_eq_zero_or_one n with h | h <;> rw [h]
      · rfl
      · simpa using gf2MatTimes_matOf hf hv
    have hvlt : f^[n % 2] v < 2 ^ 32 := by
      rcases Nat.mod_two_eq_zero_or_one n with h | h <;> rw [h]
      · exact hv
      · simpa using hf.2 v hv
    have hn2 : n / 2 < 2 ^ k := by
      have : (2:Nat) ^ (k+1) = 2 ^ k * 2 := by ring
      omega
    rw [hv', ih (f ∘ f) hf.comp _ (n / 2) hvlt hn2]
    have hiter : (f ∘ f)^[n / 2] = f^[2 * (n / 2)] := by
      rw [Function.iterate_mul]
      rfl
    rw [hiter, ← Function.iterate_add_apply, Nat.div_add_mod]

theorem crcShiftByte_isLin : IsLin32 crcShiftByte :=
  ⟨crcShiftByte_xor, fun _ hx => crcShiftByte_lt hx⟩

theorem crc32ZeroByteMat_eq_matOf : crc32ZeroByteMat crc32IEEE = matOf crcShiftByte :=
  rfl

/-- Correctness of the spec-modelled CRC32 combiner: folding the CRC of
`B` into the CRC of `A` with the precomputed IEEE matrix table yields
the CRC of the concatenation, for any `len_b = |B|` below `2^64`. -/
theorem combineCRC32_crc32 (A B : List Nat) (hB : B.length < 2 ^ 64) :
    combineCRC32 crc32Mat (crc32 A) (crc32 B) B.length = crc32 (A ++ B) := by
  unfold combineCRC32 crc32Mat precomputeCRC32
  rw [crc32ZeroByteMat_eq_matOf,
    combineLoop_matSquares 64 crcShiftByte crcShiftByte_isLin _ _ (crc32_lt A) hB,
    crc32_append]

/-! ## The builder state machine (`builder.go`)

The sink is a byte list; `packable` records whether the sink is a
`*bytes.Buffer` (back-patchable).  The external DEFLATE encoder
(`compress/flate`) is abstracted as an `Encoder` record over an opaque
state type; when writing to an in-memory buffer its operations cannot
fail, so no error channel is modelled for it (the only Go errors inside
a `Builder` are the ones the package itself constructs). -/

/-- `sectionType` from `builder.go`. -/
inductive sectionType
  | start | header | precompressed | compressed | uncompressed | finished
deriving DecidableEq, Repr

/-- The error values `builder.go` can store in its sticky `err` field. -/
inductive buildError
  | invalidLevel (level : Int)
  | levelMismatch
  | modifyAfterBytes
  | optionAfterWrite
deriving DecidableEq, Repr

/-- Abstract interface of a `*flate.Writer` over state type `σ`: each
operation returns the successor state and the bytes it emits to the
sink.  `init` is a freshly created (or pool-acquired and reset) writer. -/
structure Encoder (σ : Type) where
  init : σ
  write : σ → List Nat → σ × List Nat
  flush : σ → σ × List Nat
  close : σ → σ × List Nat
  reset : σ → σ

/-- The `builder` struct.  `out` is the accumulated sink contents,
`size`/`crc` the `uint32` footer accumulators, `uncompLen` and
`uncompHeaderIdx` the stored-block packing bookkeeping. -/
structure builder (σ : Type) where
  level : Int
  last : sectionType
  rawDeflate : Bool
  uncompLen : Nat
  uncompHeaderIdx : Nat
  packable : Bool
  out : List Nat
  fw : Option σ
  size : Nat
  crc : Nat
  err : Option buildError

/-- `closeFooter`: the zero-length final stored block. -/
def closeFooter : List Nat := [0x01, 0x00, 0x00, 0xff, 0xff]

/-- `validCompressionLevel`. -/
def validCompressionLevel (level : Int) : Option buildError :=
  if -2 ≤ level ∧ level ≤ 9 then none else some (.invalidLevel level)

/-- `newBuilder(w, level)`; `packable` is true when `w` is a `*bytes.Buffer`. -/
def newBuilder (σ : Type) (packable : Bool) (level : Int) : builder σ :=
  { level := level, last := .start, rawDeflate := false, uncompLen := 0,
    uncompHeaderIdx := 0, packable := packable, out := [], fw := none,
    size := 0, crc := 0, err := validCompressionLevel level }

/-- `canSetOption`, as a state update; the option may be set when the
resulting `err` is `none`. -/
def canSetOption (b : builder σ) : builder σ :=
  if b.last ≠ .start ∧ b.err = none
  then { b with err := some .optionAfterWrite } else b

/-- `RawDeflate()`. -/
def setRawDeflate (b : builder σ) : builder σ :=
  let b := canSetOption b
  if b.err = none then { b with rawDeflate := true } else b

/-- `canWrite`, as a state update; writing may proceed when the
resulting `err` is `none`. -/
def canWrite (b : builder σ) : builder σ :=
  if b.last = .finished ∧ b.err = none
  then { b with err := some .modifyAfterBytes } else b

/-- Two-byte little-endian encoding of a `uint16` value. -/
def le16 (n : Nat) : List Nat := [n % 256, n / 256 % 256]

/-- Four-byte little-endian encoding of a `uint32` value. -/
def le32 (n : Nat) : List Nat :=
  [n % 256, n / 256 % 256, n / 65536 % 256, n / 16777216 % 256]

/-- The 10-byte GZIP header `writeHeader` emits: magic, deflate method,
the XF byte from the level, unknown OS. -/
def gzipHeaderBytes (level : Int) : List Nat :=
  [0x1f, 0x8b, 8, 0, 0, 0, 0, 0,
    if level = 9 then 2 else if level = 1 then 4 else 0, 255]

/-- `writeHeader`. -/
def writeHeader (b : builder σ) : builder σ :=
  if b.err ≠ none ∨ b.last ≠ .start then b
  else
    let b := { b with last := sectionType.header }
    if b.rawDeflate then b
    else { b with out := b.out ++ gzipHeaderBytes b.level }

/-- `flushCompressed` (the model's encoder cannot fail, so the boolean
result is `err = none`, established by the caller). -/
def flushCompressed (E : Encoder σ) (b : builder σ) : builder σ :=
  if b.last = .compressed then
    match b.fw with
    | some s =>
      let fl := E.flush s
      { b with fw := some fl.1, out := b.out ++ fl.2 }
    | none => b
  else b

/-- `AddCompressedData`. -/
def addCompressedData (E : Encoder σ) (b : builder σ) (data : List Nat) :
    builder σ :=
  let b := if b.last = .start then writeHeader b else b
  let b := canWrite b
  if b.err ≠ none ∨ data = [] then b
  else
    let b := if b.last ≠ .compressed ∧ b.fw.isSome
             then { b with fw := b.fw.map E.reset } else b
    let b := { b with last := sectionType.compressed }
    let b := if b.fw.isNone then { b with fw := some E.init } else b
    let b := if b.rawDeflate then b
             else { b with size := (b.size + data.length) % 2 ^ 32,
                           crc := crc32Update b.crc data }
    match b.fw with
    | some s =>
      let wr := E.write s data
      { b with fw := some wr.1, out := b.out ++ wr.2 }
    | none => b

/-- `zeroWrite`: one stored block — the 5-byte header (`0x00`,
`LE16(len)`, `LE16(^len)`) followed by the literal bytes. -/
def zeroBlock (p : List Nat) : List Nat :=
  0 :: (le16 (p.length % 65536) ++ le16 (65535 - p.length % 65536) ++ p)

/-- The `packUncompressedData` feature constant. -/
def packUncompressedData : Bool := true

/-- `packUncompressed`: extend the tail stored block in place — rewrite
its length fields at `uncompHeaderIdx` and append as much of `data` as
fits — returning the remainder of `data`. -/
def packUncompressed (b : builder σ) (data : List Nat) :
    builder σ × List Nat :=
  if ¬ b.packable ∨ b.uncompLen = 65535 then (b, data)
  else
    let remaining := 65535 - b.uncompLen
    let k := if remaining > data.length then data.length else remaining
    let newLen := b.uncompLen + k
    let patched := b.out.take (b.uncompHeaderIdx + 1) ++ le16 newLen
      ++ le16 (65535 - newLen) ++ b.out.drop (b.uncompHeaderIdx + 5)
    ({ b with uncompLen := newLen, out := patched ++ data.take k },
     data.drop k)

/-- The stored-block emission loop of `AddUncompressedData` (its final
part, after packing): split off full blocks, record the tail block's
header position and length when the sink is back-patchable, emit the
tail block. -/
def uncompLoop (b : builder σ) (data : List Nat) : builder σ :=
  if data.length > 65535 then
    uncompLoop { b with out := b.out ++ zeroBlock (data.take 65535) }
      (data.drop 65535)
  else
    let b := if b.packable
             then { b with uncompHeaderIdx := b.out.length,
                           uncompLen := data.length % 65536 }
             else b
    { b with out := b.out ++ zeroBlock data }
termination_by data.length
decreasing_by simp_all [List.length_drop]; omega

/-- `AddUncompressedData`. -/
def addUncompressedData (E : Encoder σ) (b : builder σ) (data : List Nat) :
    builder σ :=
  let b := if b.last = .start then writeHeader b else b
  let b := canWrite b
  if b.err ≠ none ∨ data = [] then b
  else
    let b := flushCompressed E b
    let b := if b.rawDeflate then b
             else { b with size := (b.size + data.length) % 2 ^ 32,
                           crc := crc32Update b.crc data }
    let pk := if packUncompressedData ∧ b.last = .uncompressed
              then packUncompressed b data else (b, data)
    if pk.2 = [] then pk.1
    else uncompLoop { pk.1 with last := sectionType.uncompressed } pk.2

/-- `PrecompressedData`. -/
structure PrecompressedData where
  level : Int
  bytes : List Nat
  size : Nat
  crc : Nat
deriving DecidableEq, Repr

/-- `AddPrecompressedData`. -/
def addPrecompressedData (E : Encoder σ) (b : builder σ)
    (data : PrecompressedData) : builder σ :=
  let b := if b.last = .start then writeHeader b else b
  let b := canWrite b
  if b.err ≠ none then b
  else if b.level ≠ data.level then { b with err := some .levelMismatch }
  else if data.size = 0 then b
  else
    let b := flushCompressed E b
    let b := { b with last := sectionType.precompressed }
    let b := if b.rawDeflate then b
             else { b with size := (b.size + data.size % 2 ^ 32) % 2 ^ 32,
                           crc := combineCRC32 crc32Mat b.crc data.crc data.size }
    { b with out := b.out ++ data.bytes }

/-- `uncompressedWriter.Write`: forwards to `AddUncompressedData` and
reports the full byte count together with the sticky error. -/
def uncompressedWriterWrite (E : Encoder σ) (b : builder σ) (p : List Nat) :
    builder σ × Nat × Option buildError :=
  let b := addUncompressedData E b p
  (b, p.length, b.err)

/-- `compressedWriter.Write`. -/
def compressedWriterWrite (E : Encoder σ) (b : builder σ) (p : List Nat) :
    builder σ × Nat × Option buildError :=
  let b := addCompressedData E b p
  (b, p.length, b.err)

/-- `finish`: close the encoder or write the stored terminator, append
the footer in non-raw mode, release the encoder.  The Go boolean result
is `err = none` on the returned state. -/
def finish (E : Encoder σ) (b : builder σ) : builder σ :=
  if b.last = .finished then b
  else
    let b :=
      if b.last = .compressed then
        if b.err = none then
          match b.fw with
          | some s =>
            let cl := E.close s
            { b with fw := some cl.1, out := b.out ++ cl.2 }
          | none => b
        else b
      else
        let b := if b.last = .start then writeHeader b else b
        if b.err = none then { b with out := b.out ++ closeFooter } else b
    let b := { b with last := sectionType.finished }
    let b := if ¬ b.rawDeflate ∧ b.err = none
             then { b with out := b.out ++ le32 b.crc ++ le32 b.size } else b
    { b with fw := none }

/-- `Bytes`: finish and return the sink contents, or `nil` and the
sticky error. -/
def builderBytes (E : Encoder σ) (b : builder σ) :
    builder σ × Option (List Nat) × Option buildError :=
  let b := finish E b
  if b.err = none then (b, some b.out, none) else (b, none, b.err)

/-- `BytesOrPanic`: `Except.error` models the panic. -/
def bytesOrPanic (E : Encoder σ) (b : builder σ) :
    builder σ × Except buildError (List Nat) :=
  let b := finish E b
  match b.err with
  | none => (b, .ok b.out)
  | some e => (b, .error e)

/-- One builder append call, for reasoning about call sequences.  The
`payload` argument of `precomp` is a ghost annotation — the uncompressed
bytes a precompressed segment stands for — and is ignored by execution. -/
inductive Op
  | comp (data : List Nat)
  | uncomp (data : List Nat)
  | precomp (seg : PrecompressedData) (payload : List Nat)

def runOp (E : Encoder σ) (b : builder σ) : Op → builder σ
  | .comp d => addCompressedData E b d
  | .uncomp d => addUncompressedData E b d
  | .precomp seg _ => addPrecompressedData E b seg

def runOps (E : Encoder σ) (b : builder σ) (ops : List Op) : builder σ :=
  ops.foldl (runOp E) b

/-- The logical payload bytes an append contributes to the stream. -/
def opPayload : Op → List Nat
  | .comp d => d
  | .uncomp d => d
  | .precomp _ p => p

def opsPayload (ops : List Op) : List Nat := (ops.map opPayload).flatten

/-- A precompressed segment is honest when its recorded `crc` and
`size` really are the CRC32 and length of its ghost payload (as the
companion `PrecompressedWriter` guarantees); `size` is a `uint64`. -/
def opHonest : Op → Prop
  | .precomp seg p => seg.crc = crc32 p ∧ seg.size = p.length ∧ p.length < 2 ^ 64
  | _ => True

/-- A trivial encoder instance over `Unit`, used to instantiate
theorems at concrete inputs. -/
def unitEncoder : Encoder Unit :=
  { init := (), write := fun _ d => ((), d), flush := fun _ => ((), []),
    close := fun _ => ((), []), reset := fun _ => () }

/-! ## Basic path lemmas -/

theorem writeHeader_of_err {b : builder σ} (h : b.err ≠ none) :
    writeHeader b = b := by
  unfold writeHeader
  rw [if_pos (Or.inl h)]

theorem canWrite_of_err {b : builder σ} (h : b.err ≠ none) :
    canWrite b = b := by
  unfold canWrite
  rw [if_neg (by simp [h])]

theorem canWrite_of_not_finished {b : builder σ} (h : b.last ≠ .finished) :
    canWrite b = b := by
  unfold canWrite
  rw [if_neg (by simp [h])]

theorem preAppend_of_err {b : builder σ} (h : b.err ≠ none) :
    canWrite (if b.last = .start then writeHeader b else b) = b := by
  split
  · rw [writeHeader_of_err h, canWrite_of_err h]
  · rw [canWrite_of_err h]

theorem addCompressedData_of_err (E : Encoder σ) {b : builder σ}
    (h : b.err ≠ none) (d : List Nat) : addCompressedData E b d = b := by
  simp only [addCompressedData]
  rw [preAppend_of_err h, if_pos (Or.inl h)]

theorem addUncompressedData_of_err (E : Encoder σ) {b : builder σ}
    (h : b.err ≠ none) (d : List Nat) : addUncompressedData E b d = b := by
  simp only [addUncompressedData]
  rw [preAppend_of_err h, if_pos (Or.inl h)]

theorem addPrecompressedData_of_err (E : Encoder σ) {b : builder σ}
    (h : b.err ≠ none) (seg : PrecompressedData) :
    addPrecompressedData E b seg = b := by
  simp only [addPrecompressedData]
  rw [preAppend_of_err h, if_pos h]

theorem runOp_of_err (E : Encoder σ) {b : builder σ} (h : b.err ≠ none)
    (op : Op) : runOp E b op = b := by
  cases op with
  | comp d => exact addCompressedData_of_err E h d
  | uncomp d => exact addUncompressedData_of_err E h d
  | precomp seg p => exact addPrecompressedData_of_err E h seg

theorem runOps_of_err (E : Encoder σ) {b : builder σ} (h : b.err ≠ none)
    (ops : List Op) : runOps E b ops = b := by
  induction ops with
  | nil => rfl
  | cons op ops ih =>
    show runOps E (runOp E b op) ops = b
    rw [runOp_of_err E h op, ih]

theorem finish_of_err (E : Encoder σ) {b : builder σ} (h : b.err ≠ none) :
    finish E b = if b.last = .finished then b
      else { b with last := sectionType.finished, fw := none } := by
  have hne : ¬ b.err = none := h
  cases hl : b.last <;> simp [finish, writeHeader, hl, hne]

theorem writeHeader_level (b : builder σ) : (writeHeader b).level = b.level := by
  unfold writeHeader
  split
  · rfl
  · dsimp only
    split <;> rfl

theorem writeHeader_crc (b : builder σ) : (writeHeader b).crc = b.crc := by
  unfold writeHeader
  split
  · rfl
  · dsimp only
    split <;> rfl

theorem writeHeader_size (b : builder σ) : (writeHeader b).size = b.size := by
  unfold writeHeader
  split
  · rfl
  · dsimp only
    split <;> rfl

theorem canWrite_level (b : builder σ) : (canWrite b).level = b.level := by
  unfold canWrite
  split <;> rfl

theorem canWrite_crc (b : builder σ) : (canWrite b).crc = b.crc := by
  unfold canWrite
  split <;> rfl

theorem canWrite_size (b : builder σ) : (canWrite b).size = b.size := by
  unfold canWrite
  split <;> rfl

theorem canWrite_out (b : builder σ) : (canWrite b).out = b.out := by
  unfold canWrite
  split <;> rfl

theorem canWrite_last (b : builder σ) : (canWrite b).last = b.last := by
  unfold canWrite
  split <;> rfl

theorem writeHeader_err (b : builder σ) : (writeHeader b).err = b.err := by
  unfold writeHeader
  split
  · rfl
  · dsimp only
    split <;> rfl

theorem finish_last (E : Encoder σ) (b : builder σ) (h : b.last = .finished) :
    finish E b = b := by
  unfold finish
  rw [if_pos h]

theorem finish_last_eq (E : Encoder σ) (b : builder σ) :
    (finish E b).last = .finished := by
  unfold finish
  split
  · assumption
  · dsimp only
    repeat' split
    all_goals rfl

theorem finish_crc (E : Encoder σ) (b : builder σ) : (finish E b).crc = b.crc := by
  unfold finish
  split
  · rfl
  · dsimp only
    repeat' split
    all_goals simp [writeHeader_crc]

theorem finish_size (E : Encoder σ) (b : builder σ) : (finish E b).size = b.size := by
  unfold finish
  split
  · rfl
  · dsimp only
    repeat' split
    all_goals simp [writeHeader_size]

theorem finish_err (E : Encoder σ) (b : builder σ) : (finish E b).err = b.err := by
  unfold finish
  split
  · rfl
  · dsimp only
    repeat' split
    all_goals simp [writeHeader_err]

/-! ## Claim C10: modify-after-finish precedes the level check -/

/-- C10: calling `AddPrecompressedData` on a finished builder with no
prior sticky error and a mismatched level sets the
"cannot modify Builder after Bytes called" error (not the level
mismatch): the `canWrite` check runs before the level comparison, and
nothing else about the builder changes. -/
theorem c10_finished_beats_level_mismatch (E : Encoder σ) (b : builder σ)
    (seg : PrecompressedData) (hf : b.last = .finished) (he : b.err = none)
    (_ : seg.level ≠ b.level) :
    addPrecompressedData E b seg = { b with err := some .modifyAfterBytes } := by
  simp [addPrecompressedData, canWrite, writeHeader, hf, he]

/-- Witness for C10: a freshly finished default-level builder and a
`BestCompression` segment. -/
theorem c10_witness :
    addPrecompressedData unitEncoder
        (finish unitEncoder (newBuilder Unit true (-1)))
        { level := 9, bytes := [], size := 0, crc := 0 }
      = { finish unitEncoder (newBuilder Unit true (-1)) with
          err := some .modifyAfterBytes } :=
  c10_finished_beats_level_mismatch unitEncoder _ _ (by decide) (by decide)
    (by decide)

/-! ## Claim C5 (corrected): a level mismatch is recorded even for
zero-size segments, but "writes nothing" fails from `START` -/

/-- Counterexample to C5 as stated: on a fresh (writable) builder the
mismatched `AddPrecompressedData` call does set the level-mismatch
error — even though the segment has size 0 — but it does not "write
nothing": the GZIP header is emitted before the level check. -/
theorem c5_counterexample :
    (addPrecompressedData unitEncoder (newBuilder Unit true (-1))
        { level := 9, bytes := [], size := 0, crc := 0 }).err
        = some .levelMismatch
    ∧ (addPrecompressedData unitEncoder (newBuilder Unit true (-1))
        { level := 9, bytes := [], size := 0, crc := 0 }).out
        ≠ (newBuilder Unit true (-1)).out := by
  constructor
  · decide
  · decide

/-- C5 (amended): for every writable builder and mismatched segment
(even of size 0), `AddPrecompressedData` sets the sticky
level-mismatch error and writes nothing except, when the builder is
still in `START` and not in raw mode, the 10-byte GZIP header emitted
by the prologue; `crc`, `size` and the encoder are untouched. -/
theorem preAppend_spec (b : builder σ) (he : b.err = none)
    (hf : b.last ≠ .finished) :
    canWrite (if b.last = .start then writeHeader b else b) =
      { b with last := if b.last = .start then .header else b.last,
               out := b.out ++ (if b.last = .start ∧ ¬ b.rawDeflate
                                then gzipHeaderBytes b.level else []) } := by
  cases hlast : b.last
  case finished => exact absurd hlast hf
  all_goals
    cases hraw : b.rawDeflate <;> cases b <;> simp_all [writeHeader, canWrite]

theorem c5_level_mismatch_amended (E : Encoder σ) (b : builder σ)
    (seg : PrecompressedData) (he : b.err = none) (hf : b.last ≠ .finished)
    (hl : b.level ≠ seg.level) :
    addPrecompressedData E b seg =
      { b with err := some .levelMismatch,
               last := if b.last = .start then .header else b.last,
               out := b.out ++ (if b.last = .start ∧ ¬ b.rawDeflate
                                then gzipHeaderBytes b.level else []) } := by
  simp only [addPrecompressedData]
  rw [preAppend_spec b he hf]
  rw [if_neg (by simp [he]), if_pos (by simpa using hl)]

/-- Witness for C5 (amended): fresh default-level builder, zero-size
`BestCompression` segment. -/
theorem c5_witness :
    addPrecompressedData unitEncoder (newBuilder Unit true (-1))
        { level := 9, bytes := [], size := 0, crc := 0 }
      = { newBuilder Unit true (-1) with
          err := some .levelMismatch,
          last := if (newBuilder Unit true (-1) : builder Unit).last = .start
                  then .header else (newBuilder Unit true (-1) : builder Unit).last,
          out := (newBuilder Unit true (-1) : builder Unit).out
            ++ (if (newBuilder Unit true (-1) : builder Unit).last = .start
                  ∧ ¬ (newBuilder Unit true (-1) : builder Unit).rawDeflate
                then gzipHeaderBytes (newBuilder Unit true (-1) : builder Unit).level
                else []) } :=
  c5_level_mismatch_amended unitEncoder _ _ (by decide) (by decide) (by decide)

/-- A concrete finished builder (default level, buffer sink), used to
instantiate theorems about finished builders. -/
def bFinished : builder Unit := finish unitEncoder (newBuilder Unit true (-1))

/-! ## Claim C9 (corrected): effective zero-length appends -/

/-- Counterexample to C9 as stated: on a fresh valid builder (which is
in `START`), an empty `AddUncompressedData` call emits the GZIP header
and moves `last` to `HEADER` — it is not a no-op on `last` or on the
sink (the repository's own `TestBuilderEmptyData` asserts
`b.last == header` after an empty append). -/
theorem c9_counterexample :
    (addUncompressedData unitEncoder (newBuilder Unit true (-1)) []).last
      ≠ (newBuilder Unit true (-1)).last
    ∧ (addUncompressedData unitEncoder (newBuilder Unit true (-1)) []).out
      ≠ (newBuilder Unit true (-1)).out := by
  constructor
  · decide
  · decide

/-- C9 (amended): every effective zero-length append (empty data, or a
zero-size matching-level precompressed segment) reduces to the shared
prologue — `writeHeader` when in `START`, then the `canWrite` check —
which never changes `crc` or `size`, and changes neither `last` nor the
sink unless the builder was in `START` (where the header is emitted and
`last` becomes `HEADER`). -/
theorem c9_empty_append_amended (E : Encoder σ) (b : builder σ) :
    addCompressedData E b []
        = canWrite (if b.last = .start then writeHeader b else b)
    ∧ addUncompressedData E b []
        = canWrite (if b.last = .start then writeHeader b else b)
    ∧ (∀ seg : PrecompressedData, seg.size = 0 → seg.level = b.level →
        addPrecompressedData E b seg
          = canWrite (if b.last = .start then writeHeader b else b))
    ∧ (canWrite (if b.last = .start then writeHeader b else b)).crc = b.crc
    ∧ (canWrite (if b.last = .start then writeHeader b else b)).size = b.size
    ∧ (b.last ≠ .start →
        (canWrite (if b.last = .start then writeHeader b else b)).out = b.out
        ∧ (canWrite (if b.last = .start then writeHeader b else b)).last = b.last) := by
  have hlev : (canWrite (if b.last = .start then writeHeader b else b)).level
      = b.level := by
    rw [canWrite_level]
    split
    · rw [writeHeader_level]
    · rfl
  refine ⟨?_, ?_, ?_, ?_, ?_, ?_⟩
  · simp only [addCompressedData]
    rw [if_pos (Or.inr trivial)]
  · simp only [addUncompressedData]
    rw [if_pos (Or.inr trivial)]
  · intro seg h0 hl
    simp only [addPrecompressedData]
    by_cases he : (canWrite (if b.last = .start then writeHeader b else b)).err
        = none
    · rw [if_neg (by simp [he]), if_neg (by simp [hlev, hl]), if_pos h0]
    · rw [if_pos he]
  · rw [canWrite_crc]
    split
    · rw [writeHeader_crc]
    · rfl
  · rw [canWrite_size]
    split
    · rw [writeHeader_size]
    · rfl
  · intro h
    rw [if_neg h, canWrite_out, canWrite_last]
    exact ⟨rfl, rfl⟩

/-- Witness for C9 (amended): a finished builder (so `last ≠ START`)
with an empty uncompressed append and a zero-size matching segment. -/
theorem c9_witness :
    addUncompressedData unitEncoder bFinished []
      = canWrite (if bFinished.last = .start then writeHeader bFinished
                  else bFinished)
    ∧ addPrecompressedData unitEncoder bFinished
        { level := -1, bytes := [], size := 0, crc := 0 }
      = canWrite (if bFinished.last = .start then writeHeader bFinished
                  else bFinished)
    ∧ (canWrite (if bFinished.last = .start then writeHeader bFinished
                  else bFinished)).out = bFinished.out :=
  ⟨(c9_empty_append_amended unitEncoder bFinished).2.1,
   (c9_empty_append_amended unitEncoder bFinished).2.2.1
     { level := -1, bytes := [], size := 0, crc := 0 } (by decide) (by decide),
   ((c9_empty_append_amended unitEncoder bFinished).2.2.2.2.2 (by decide)).1⟩

/-! ## Claim C6: sticky errors short-circuit everything -/

/-- C6: once the sticky error is set, every append (directly or through
the writer adapters) returns the builder unchanged, finishing performs
no output and leaves `crc`/`size` untouched, `Bytes` returns `nil`
bytes with that error, and `BytesOrPanic` panics with it. -/
theorem c6_sticky_error (E : Encoder σ) (b : builder σ) (e : buildError)
    (h : b.err = some e) :
    (∀ d, addCompressedData E b d = b)
    ∧ (∀ d, addUncompressedData E b d = b)
    ∧ (∀ seg, addPrecompressedData E b seg = b)
    ∧ (∀ p, uncompressedWriterWrite E b p = (b, p.length, some e))
    ∧ (∀ p, compressedWriterWrite E b p = (b, p.length, some e))
    ∧ (finish E b).out = b.out
    ∧ (finish E b).crc = b.crc
    ∧ (finish E b).size = b.size
    ∧ builderBytes E b = (finish E b, none, some e)
    ∧ (bytesOrPanic E b).2 = Except.error e := by
  have hne : b.err ≠ none := by simp [h]
  have hferr : (finish E b).err = some e := by rw [finish_err, h]
  refine ⟨fun d => addCompressedData_of_err E hne d,
    fun d => addUncompressedData_of_err E hne d,
    fun seg => addPrecompressedData_of_err E hne seg,
    fun p => ?_, fun p => ?_, ?_, ?_, ?_, ?_, ?_⟩
  · simp only [uncompressedWriterWrite]
    rw [addUncompressedData_of_err E hne, h]
  · simp only [compressedWriterWrite]
    rw [addCompressedData_of_err E hne, h]
  · rw [finish_of_err E hne]
    split <;> rfl
  · exact finish_crc E b
  · exact finish_size E b
  · simp only [builderBytes]
    rw [if_neg (by simp [hferr]), hferr]
  · simp only [bytesOrPanic, hferr]

/-- Witness for C6: a builder constructed at the invalid level `-100`
carries the invalid-level error from birth. -/
theorem c6_witness :
    (∀ d, addCompressedData unitEncoder (newBuilder Unit true (-100)) d
      = newBuilder Unit true (-100))
    ∧ (bytesOrPanic unitEncoder (newBuilder Unit true (-100))).2
      = Except.error (.invalidLevel (-100)) :=
  ⟨(c6_sticky_error unitEncoder _ (.invalidLevel (-100)) (by decide)).1,
   (c6_sticky_error unitEncoder _ (.invalidLevel (-100)) (by decide)).2.2.2.2.2.2.2.2.2⟩

/-! ## Claim C7: `Bytes` is idempotent -/

/-- C7: when the first `Bytes` call succeeds, every further call
returns the identical bytes with no error and leaves the builder
untouched; invoking `finish` while already `FINISHED` is the identity
(only the sticky error is reported). -/
theorem c7_bytes_idempotent (E : Encoder σ) (b : builder σ)
    (h : (builderBytes E b).2.2 = none) :
    builderBytes E ((builderBytes E b).1)
      = ((builderBytes E b).1, (builderBytes E b).2.1, none)
    ∧ ∀ b2 : builder σ, b2.last = .finished → finish E b2 = b2 := by
  have herr : (finish E b).err = none := by
    by_contra hne
    have hbb : builderBytes E b = (finish E b, none, (finish E b).err) := by
      simp only [builderBytes]
      rw [if_neg hne]
    rw [hbb] at h
    exact hne h
  have hbb : builderBytes E b = (finish E b, some (finish E b).out, none) := by
    simp only [builderBytes]
    rw [if_pos herr]
  refine ⟨?_, fun b2 h2 => finish_last E b2 h2⟩
  rw [hbb]
  simp only [builderBytes]
  rw [finish_last E (finish E b) (finish_last_eq E b), if_pos herr]

/-- Witness for C7: a successfully finished empty builder. -/
theorem c7_witness :
    builderBytes unitEncoder
        ((builderBytes unitEncoder (newBuilder Unit true (-1))).1)
      = ((builderBytes unitEncoder (newBuilder Unit true (-1))).1,
         (builderBytes unitEncoder (newBuilder Unit true (-1))).2.1, none) :=
  (c7_bytes_idempotent unitEncoder (newBuilder Unit true (-1)) (by decide)).1

/-! ## Claim C3: finalising with no payload -/

/-- C3: at every valid level, a non-raw builder finalised with no
payload produces exactly the 23 bytes: the 10-byte header
`1F 8B 08 00 00 00 00 00 XF FF` (XF = 2 at `BestCompression`, 4 at
`BestSpeed`, 0 otherwise), the empty final stored block
`01 00 00 FF FF`, and the two zero `LE32` footer fields. -/
theorem c3_empty_builder_output (E : Encoder σ) (level : Int)
    (hlo : -2 ≤ level) (hhi : level ≤ 9) :
    (builderBytes E (newBuilder σ true level)).2.1 =
      some ([0x1f, 0x8b, 0x08, 0, 0, 0, 0, 0,
        if level = 9 then 2 else if level = 1 then 4 else 0, 0xff]
        ++ [0x01, 0x00, 0x00, 0xff, 0xff] ++ le32 0 ++ le32 0) := by
  have he : validCompressionLevel level = none := by
    unfold validCompressionLevel
    rw [if_pos ⟨hlo, hhi⟩]
  simp [builderBytes, finish, newBuilder, writeHeader, canWrite, he,
    gzipHeaderBytes, closeFooter]

/-- Witness for C3 at the default level. -/
theorem c3_witness :
    (builderBytes unitEncoder (newBuilder Unit true (-1))).2.1 =
      some ([0x1f, 0x8b, 0x08, 0, 0, 0, 0, 0,
        if (-1 : Int) = 9 then 2 else if (-1 : Int) = 1 then 4 else 0, 0xff]
        ++ [0x01, 0x00, 0x00, 0xff, 0xff] ++ le32 0 ++ le32 0) :=
  c3_empty_builder_output unitEncoder (-1) (by norm_num) (by norm_num)

/-! ## The stored-block framer: closed forms for the emission loop -/

/-- The byte stream the emission loop of `AddUncompressedData` appends
for a payload: full 65535-byte stored blocks, then one final block with
the remainder. -/
def storedBlocks (d : List Nat) : List Nat :=
  if d.length > 65535 then zeroBlock (d.take 65535) ++ storedBlocks (d.drop 65535)
  else zeroBlock d
termination_by d.length
decreasing_by simp_all [List.length_drop]; omega

/-- The payload length of the final stored block the loop emits. -/
def lastBlockLen (d : List Nat) : Nat :=
  if d.length > 65535 then lastBlockLen (d.drop 65535) else d.length
termination_by d.length
decreasing_by simp_all [List.length_drop]; omega

/-- The total size of the full blocks emitted before the final one
(each 5 header bytes plus 65535 payload bytes). -/
def fullBlocksLen (d : List Nat) : Nat :=
  if d.length > 65535 then 65540 + fullBlocksLen (d.drop 65535) else 0
termination_by d.length
decreasing_by simp_all [List.length_drop]; omega

/-- The partition of a payload into the per-block chunks the loop uses:
full 65535-byte chunks, then the remainder. -/
def chunks65535 (d : List Nat) : List (List Nat) :=
  if d.length > 65535 then d.take 65535 :: chunks65535 (d.drop 65535) else [d]
termination_by d.length
decreasing_by simp_all [List.length_drop]; omega

theorem le16_length (n : Nat) : (le16 n).length = 2 := rfl

theorem zeroBlock_length (p : List Nat) : (zeroBlock p).length = 5 + p.length := by
  simp [zeroBlock, le16]
  omega

theorem lastBlockLen_le (d : List Nat) : lastBlockLen d ≤ 65535 := by
  induction d using storedBlocks.induct with
  | case1 d hgt ih => rw [lastBlockLen, if_pos hgt]; exact ih
  | case2 d hle => rw [lastBlockLen, if_neg hle]; omega

theorem lastBlockLen_pos (d : List Nat) (hd : d ≠ []) : 1 ≤ lastBlockLen d := by
  induction d using storedBlocks.induct with
  | case1 d hgt ih =>
    rw [lastBlockLen, if_pos hgt]
    refine ih ?_
    intro hnil
    have hlen : (List.drop 65535 d).length = 0 := by rw [hnil]; rfl
    rw [List.length_drop] at hlen
    omega
  | case2 d hle =>
    rw [lastBlockLen, if_neg hle]
    have : d.length ≠ 0 := by simpa using hd
    omega

theorem storedBlocks_length (d : List Nat) :
    (storedBlocks d).length = fullBlocksLen d + 5 + lastBlockLen d := by
  induction d using storedBlocks.induct with
  | case1 d hgt ih =>
    rw [storedBlocks, if_pos hgt, fullBlocksLen, if_pos hgt,
      lastBlockLen, if_pos hgt]
    rw [List.length_append, zeroBlock_length, List.length_take]
    have : min 65535 d.length = 65535 := by omega
    rw [this, ih]
    omega
  | case2 d hle =>
    rw [storedBlocks, if_neg hle, fullBlocksLen, if_neg hle,
      lastBlockLen, if_neg hle, zeroBlock_length]

/-- Splitting law for the emission functions when the left part ends in
a full block. -/
theorem storedBlocks_append_of_full (T : List Nat) (hT : lastBlockLen T = 65535) :
    ∀ d : List Nat, d ≠ [] →
      storedBlocks (T ++ d) = storedBlocks T ++ storedBlocks d
      ∧ fullBlocksLen (T ++ d) = (storedBlocks T).length + fullBlocksLen d
      ∧ lastBlockLen (T ++ d) = lastBlockLen d := by
  induction T using storedBlocks.induct with
  | case1 T hgt ih =>
    intro d hd
    rw [lastBlockLen, if_pos hgt] at hT
    have h1 : (T ++ d).length > 65535 := by
      rw [List.length_append]; omega
    have h2 : (65535 : Nat) ≤ T.length := by omega
    have htk : (T ++ d).take 65535 = T.take 65535 :=
      List.take_append_of_le_length h2
    have hdr : (T ++ d).drop 65535 = T.drop 65535 ++ d :=
      List.drop_append_of_le_length h2
    have hdrop_ne : T.drop 65535 ++ d ≠ [] := by simp [hd]
    obtain ⟨ihs, ihf, ihl⟩ := ih hT d hd
    refine ⟨?_, ?_, ?_⟩
    · rw [storedBlocks, if_pos h1, htk, hdr, ihs,
        show storedBlocks T = zeroBlock (T.take 65535) ++ storedBlocks (T.drop 65535)
          by rw [storedBlocks, if_pos hgt]]
      simp [List.append_assoc]
    · rw [fullBlocksLen, if_pos h1, hdr, ihf,
        show storedBlocks T = zeroBlock (T.take 65535) ++ storedBlocks (T.drop 65535)
          by rw [storedBlocks, if_pos hgt]]
      rw [List.length_append, zeroBlock_length, List.length_take]
      have : min 65535 T.length = 65535 := by omega
      omega
    · rw [lastBlockLen, if_pos h1, hdr, ihl]
  | case2 T hle =>
    intro d hd
    rw [lastBlockLen, if_neg hle] at hT
    have h1 : (T ++ d).length > 65535 := by
      rw [List.length_append]
      have : d.length ≠ 0 := by simpa using hd
      omega
    have htk : (T ++ d).take 65535 = T := by
      rw [← hT, List.take_left]
    have hdr : (T ++ d).drop 65535 = d := by
      rw [← hT, List.drop_left]
    refine ⟨?_, ?_, ?_⟩
    · rw [storedBlocks, if_pos h1, htk, hdr,
        show storedBlocks T = zeroBlock T by rw [storedBlocks, if_neg hle]]
    · rw [fullBlocksLen, if_pos h1, hdr,
        show storedBlocks T = zeroBlock T by rw [storedBlocks, if_neg hle],
        zeroBlock_length, hT]
    · rw [lastBlockLen, if_pos h1, hdr]

/-- Back-patching law: rewriting the final block's two length fields
(at offsets 1–4 past the final header) and appending `e` to a stored
stream is the same as emitting the extended payload in one go, as long
as the extension still fits in the final block. -/
theorem storedBlocks_extend (T : List Nat) :
    ∀ e : List Nat, T ≠ [] → e ≠ [] → lastBlockLen T + e.length ≤ 65535 →
      (storedBlocks T).take (fullBlocksLen T + 1)
          ++ le16 (lastBlockLen T + e.length)
          ++ le16 (65535 - (lastBlockLen T + e.length))
          ++ (storedBlocks T).drop (fullBlocksLen T + 5) ++ e
        = storedBlocks (T ++ e)
      ∧ lastBlockLen (T ++ e) = lastBlockLen T + e.length
      ∧ fullBlocksLen (T ++ e) = fullBlocksLen T := by
  induction T using storedBlocks.induct with
  | case1 T hgt ih =>
    intro e _ he hfit
    rw [lastBlockLen, if_pos hgt] at hfit ⊢
    rw [fullBlocksLen, if_pos hgt]
    have hdne : T.drop 65535 ≠ [] := by
      intro hnil
      have hlen : (List.drop 65535 T).length = 0 := by rw [hnil]; rfl
      rw [List.length_drop] at hlen
      omega
    obtain ⟨ihs, ihl, ihf⟩ := ih e hdne he hfit
    have hZlen : (zeroBlock (T.take 65535)).length = 65540 := by
      rw [zeroBlock_length, List.length_take]
      omega
    have h1 : (T ++ e).length > 65535 := by
      rw [List.length_append]
      omega
    have h65 : (65535 : Nat) ≤ T.length := by omega
    have htk : (T ++ e).take 65535 = T.take 65535 :=
      List.take_append_of_le_length h65
    have hdr : (T ++ e).drop 65535 = T.drop 65535 ++ e :=
      List.drop_append_of_le_length h65
    refine ⟨?_, ?_, ?_⟩
    · rw [storedBlocks, if_pos hgt]
      rw [show 65540 + fullBlocksLen (List.drop 65535 T) + 1
          = (zeroBlock (T.take 65535)).length + (fullBlocksLen (List.drop 65535 T) + 1)
          by rw [hZlen]; omega]
      rw [show 65540 + fullBlocksLen (List.drop 65535 T) + 5
          = (zeroBlock (T.take 65535)).length + (fullBlocksLen (List.drop 65535 T) + 5)
          by rw [hZlen]; omega]
      rw [List.take_append, List.drop_append]
      conv_lhs => rw [List.append_assoc]
      rw [show storedBlocks (T ++ e)
          = zeroBlock ((T ++ e).take 65535) ++ storedBlocks ((T ++ e).drop 65535)
          by rw [storedBlocks, if_pos h1]]
      rw [htk, hdr, ← ihs]
      simp [List.append_assoc]
    · rw [lastBlockLen, if_pos h1, hdr, ihl]
    · rw [fullBlocksLen, if_pos h1, hdr, ihf]
  | case2 T hle =>
    intro e hT he hfit
    rw [lastBlockLen, if_neg hle] at hfit ⊢
    rw [fullBlocksLen, if_neg hle]
    have hTlen : 1 ≤ T.length := by
      have : T.length ≠ 0 := by simpa using hT
      omega
    have helen : 1 ≤ e.length := by
      have : e.length ≠ 0 := by simpa using he
      omega
    have hTe : (T ++ e).length ≤ 65535 := by
      rw [List.length_append]; omega
    have hmT : T.length % 65536 = T.length := Nat.mod_eq_of_lt (by omega)
    have hmTe : (T.length + e.length) % 65536 = T.length + e.length :=
      Nat.mod_eq_of_lt (by omega)
    refine ⟨?_, ?_, ?_⟩
    · rw [show storedBlocks T = zeroBlock T by rw [storedBlocks, if_neg hle],
        show storedBlocks (T ++ e) = zeroBlock (T ++ e) by
          rw [storedBlocks, if_neg (by omega)]]
      simp only [zeroBlock, le16, hmT, hmTe, List.length_append]
      simp [List.take_succ_cons, List.drop_succ_cons]
    · rw [lastBlockLen, if_neg (by rw [List.length_append]; omega),
        List.length_append]
    · rw [fullBlocksLen, if_neg (by rw [List.length_append]; omega)]

/-- Closed form of the emission loop over a back-patchable sink. -/
theorem uncompLoop_spec (d : List Nat) :
    ∀ b : builder σ, b.packable = true →
      uncompLoop b d =
        { b with
            out := b.out ++ storedBlocks d,
            uncompHeaderIdx := b.out.length + fullBlocksLen d,
            uncompLen := lastBlockLen d } := by
  induction d using storedBlocks.induct with
  | case1 d hgt ih =>
    intro b hp
    rw [uncompLoop, if_pos hgt,
      ih { b with out := b.out ++ zeroBlock (List.take 65535 d) } hp]
    have hsb : storedBlocks d
        = zeroBlock (List.take 65535 d) ++ storedBlocks (List.drop 65535 d) := by
      rw [storedBlocks]
      rw [if_pos hgt]
    have hfb : fullBlocksLen d = 65540 + fullBlocksLen (List.drop 65535 d) := by
      rw [fullBlocksLen]
      rw [if_pos hgt]
    have hlb : lastBlockLen d = lastBlockLen (List.drop 65535 d) := by
      rw [lastBlockLen]
      rw [if_pos hgt]
    have hZlen : (zeroBlock (List.take 65535 d)).length = 65540 := by
      rw [zeroBlock_length, List.length_take]
      omega
    rw [hsb, hfb, hlb]
    simp [List.append_assoc, List.length_append, hZlen]
    omega
  | case2 d hle =>
    intro b hp
    rw [uncompLoop, if_neg hle]
    rw [storedBlocks, if_neg hle, fullBlocksLen, if_neg hle,
      lastBlockLen, if_neg hle]
    have hm : d.length % 65536 = d.length := Nat.mod_eq_of_lt (by omega)
    simp [hp, hm]

/-- Closed form of the non-packing emission loop (streaming sink). -/
theorem uncompLoop_spec_stream (d : List Nat) :
    ∀ b : builder σ, b.packable = false →
      uncompLoop b d = { b with out := b.out ++ storedBlocks d } := by
  induction d using storedBlocks.induct with
  | case1 d hgt ih =>
    intro b hp
    rw [uncompLoop, if_pos hgt,
      ih { b with out := b.out ++ zeroBlock (List.take 65535 d) } hp]
    have hsb : storedBlocks d
        = zeroBlock (List.take 65535 d) ++ storedBlocks (List.drop 65535 d) := by
      rw [storedBlocks]
      rw [if_pos hgt]
    rw [hsb]
    simp [List.append_assoc]
  | case2 d hle =>
    intro b hp
    rw [uncompLoop, if_neg hle]
    rw [storedBlocks, if_neg hle]
    simp [hp]

/-- Closed form of `AddUncompressedData` from a clean non-`START`,
non-`COMPRESSED`, non-`UNCOMPRESSED` state (e.g. right after the header
or a precompressed splice) over a back-patchable sink. -/
theorem addUncompressedData_clean (E : Encoder σ) (b : builder σ)
    (d : List Nat) (hd : d ≠ []) (he : b.err = none)
    (hs : b.last ≠ .start) (hc : b.last ≠ .compressed)
    (hu : b.last ≠ .uncompressed) (hf : b.last ≠ .finished)
    (hp : b.packable = true) (hr : b.rawDeflate = false) :
    addUncompressedData E b d =
      { b with last := sectionType.uncompressed,
               crc := crc32Update b.crc d,
               size := (b.size + d.length) % 2 ^ 32,
               out := b.out ++ storedBlocks d,
               uncompHeaderIdx := b.out.length + fullBlocksLen d,
               uncompLen := lastBlockLen d } := by
  simp only [addUncompressedData]
  rw [if_neg hs, canWrite_of_not_finished hf, if_neg (by simp [he, hd])]
  rw [show flushCompressed E b = b by unfold flushCompressed; rw [if_neg hc]]
  rw [if_neg (show ¬ (b.rawDeflate = true) by simp [hr])]
  rw [if_neg (show ¬ (packUncompressedData = true ∧
      ({ b with size := (b.size + d.length) % 2 ^ 32,
                crc := crc32Update b.crc d } : builder σ).last
        = sectionType.uncompressed) by simp [hu])]
  rw [if_neg (show ¬ ((({ b with
      size := (b.size + d.length) % 2 ^ 32,
      crc := crc32Update b.crc d } : builder σ), d).2 = [])
    by simp [hd])]
  rw [uncompLoop_spec d
    { b with last := sectionType.uncompressed,
             size := (b.size + d.length) % 2 ^ 32,
             crc := crc32Update b.crc d } hp]

/-- Sequencing law for the CRC32 point update. -/
theorem crc32Update_assoc (c : Nat) (A B : List Nat) :
    crc32Update (crc32Update c A) B = crc32Update c (A ++ B) := by
  simp only [crc32Update, List.foldl_append]
  have hc : ∀ u : Nat, u ^^^ 0xffffffff ^^^ 0xffffffff = u := by
    intro u
    simp [Nat.xor_assoc, Nat.xor_self, Nat.xor_zero]
  rw [hc]

/-- The shared prologue is the identity on an uncompressed-state
builder. -/
theorem preAppend_uncomp (b : builder σ) (hu : b.last = .uncompressed) :
    canWrite (if b.last = sectionType.start then writeHeader b else b) = b := by
  rw [if_neg (show ¬ (b.last = sectionType.start) by simp [hu]),
    canWrite_of_not_finished (show b.last ≠ sectionType.finished by simp [hu])]

/-- `AddUncompressedData` on an uncompressed-state builder whose tail
block is full: packing is skipped and fresh blocks are emitted. -/
theorem addUncompressedData_uncomp_full (E : Encoder σ) (b : builder σ)
    (d : List Nat) (hd : d ≠ []) (he : b.err = none)
    (hu : b.last = .uncompressed) (hp : b.packable = true)
    (hr : b.rawDeflate = false) (h65 : b.uncompLen = 65535) :
    addUncompressedData E b d =
      { b with last := sectionType.uncompressed,
               crc := crc32Update b.crc d,
               size := (b.size + d.length) % 2 ^ 32,
               out := b.out ++ storedBlocks d,
               uncompHeaderIdx := b.out.length + fullBlocksLen d,
               uncompLen := lastBlockLen d } := by
  simp only [addUncompressedData]
  rw [preAppend_uncomp b hu, if_neg (by simp [he, hd])]
  rw [show flushCompressed E b = b by
    unfold flushCompressed
    rw [if_neg (show ¬ (b.last = sectionType.compressed) by simp [hu])]]
  rw [if_neg (show ¬ (b.rawDeflate = true) by simp [hr])]
  rw [if_pos (show packUncompressedData = true ∧
      ({ b with size := (b.size + d.length) % 2 ^ 32,
                crc := crc32Update b.crc d } : builder σ).last
        = sectionType.uncompressed from ⟨rfl, hu⟩)]
  rw [show packUncompressed
      ({ b with size := (b.size + d.length) % 2 ^ 32,
                crc := crc32Update b.crc d } : builder σ) d
      = (({ b with size := (b.size + d.length) % 2 ^ 32,
                   crc := crc32Update b.crc d } : builder σ), d) by
    unfold packUncompressed
    rw [if_pos (Or.inr h65)]]
  rw [if_neg (show ¬ ((({ b with
      size := (b.size + d.length) % 2 ^ 32,
      crc := crc32Update b.crc d } : builder σ), d).2 = []) by simp [hd])]
  rw [uncompLoop_spec d
    { b with last := sectionType.uncompressed,
             size := (b.size + d.length) % 2 ^ 32,
             crc := crc32Update b.crc d } hp]

/-- `AddUncompressedData` on an uncompressed-state builder with room in
the tail block, when all of `d` fits: pure back-patching, nothing else
is written. -/
theorem addUncompressedData_uncomp_fits (E : Encoder σ) (b : builder σ)
    (d : List Nat) (hd : d ≠ []) (he : b.err = none)
    (hu : b.last = .uncompressed) (hp : b.packable = true)
    (hr : b.rawDeflate = false) (h65 : b.uncompLen < 65535)
    (hfit : d.length ≤ 65535 - b.uncompLen) :
    addUncompressedData E b d =
      { b with crc := crc32Update b.crc d,
               size := (b.size + d.length) % 2 ^ 32,
               uncompLen := b.uncompLen + d.length,
               out := (b.out.take (b.uncompHeaderIdx + 1)
                 ++ le16 (b.uncompLen + d.length)
                 ++ le16 (65535 - (b.uncompLen + d.length))
                 ++ b.out.drop (b.uncompHeaderIdx + 5)) ++ d } := by
  simp only [addUncompressedData]
  rw [preAppend_uncomp b hu, if_neg (by simp [he, hd])]
  rw [show flushCompressed E b = b by
    unfold flushCompressed
    rw [if_neg (show ¬ (b.last = sectionType.compressed) by simp [hu])]]
  rw [if_neg (show ¬ (b.rawDeflate = true) by simp [hr])]
  rw [if_pos (show packUncompressedData = true ∧
      ({ b with size := (b.size + d.length) % 2 ^ 32,
                crc := crc32Update b.crc d } : builder σ).last
        = sectionType.uncompressed from ⟨rfl, hu⟩)]
  unfold packUncompressed
  rw [if_neg (show ¬ (¬ ({ b with
      size := (b.size + d.length) % 2 ^ 32,
      crc := crc32Update b.crc d } : builder σ).packable = true ∨
      ({ b with size := (b.size + d.length) % 2 ^ 32,
                crc := crc32Update b.crc d } : builder σ).uncompLen = 65535)
    by simp [hp]; omega)]
  have hk : (if 65535 - b.uncompLen > d.length then d.length
      else 65535 - b.uncompLen) = d.length := by
    split <;> omega
  simp only [hk]
  rw [if_pos (by simp)]
  rw [List.take_length]

/-- `AddUncompressedData` on an uncompressed-state builder with room in
the tail block, when `d` overflows it: back-patch the tail to full,
then emit fresh blocks for the remainder. -/
theorem addUncompressedData_uncomp_overflow (E : Encoder σ) (b : builder σ)
    (d : List Nat) (he : b.err = none)
    (hu : b.last = .uncompressed) (hp : b.packable = true)
    (hr : b.rawDeflate = false) (h65 : b.uncompLen < 65535)
    (hov : 65535 - b.uncompLen < d.length) :
    addUncompressedData E b d =
      { b with last := sectionType.uncompressed,
               crc := crc32Update b.crc d,
               size := (b.size + d.length) % 2 ^ 32,
               out := ((b.out.take (b.uncompHeaderIdx + 1)
                   ++ le16 (b.uncompLen + (65535 - b.uncompLen))
                   ++ le16 (65535 - (b.uncompLen + (65535 - b.uncompLen)))
                   ++ b.out.drop (b.uncompHeaderIdx + 5))
                   ++ d.take (65535 - b.uncompLen))
                 ++ storedBlocks (d.drop (65535 - b.uncompLen)),
               uncompHeaderIdx := ((b.out.take (b.uncompHeaderIdx + 1)
                   ++ le16 (b.uncompLen + (65535 - b.uncompLen))
                   ++ le16 (65535 - (b.uncompLen + (65535 - b.uncompLen)))
                   ++ b.out.drop (b.uncompHeaderIdx + 5))
                   ++ d.take (65535 - b.uncompLen)).length
                 + fullBlocksLen (d.drop (65535 - b.uncompLen)),
               uncompLen := lastBlockLen (d.drop (65535 - b.uncompLen)) } := by
  have hd : d ≠ [] := by
    intro hnil
    rw [hnil] at hov
    simp at hov
  simp only [addUncompressedData]
  rw [preAppend_uncomp b hu, if_neg (by simp [he, hd])]
  rw [show flushCompressed E b = b by
    unfold flushCompressed
    rw [if_neg (show ¬ (b.last = sectionType.compressed) by simp [hu])]]
  rw [if_neg (show ¬ (b.rawDeflate = true) by simp [hr])]
  rw [if_pos (show packUncompressedData = true ∧
      ({ b with size := (b.size + d.length) % 2 ^ 32,
                crc := crc32Update b.crc d } : builder σ).last
        = sectionType.uncompressed from ⟨rfl, hu⟩)]
  unfold packUncompressed
  rw [if_neg (show ¬ (¬ ({ b with
      size := (b.size + d.length) % 2 ^ 32,
      crc := crc32Update b.crc d } : builder σ).packable = true ∨
      ({ b with size := (b.size + d.length) % 2 ^ 32,
                crc := crc32Update b.crc d } : builder σ).uncompLen = 65535)
    by simp [hp]; omega)]
  have hk : (if 65535 - b.uncompLen > d.length then d.length
      else 65535 - b.uncompLen) = 65535 - b.uncompLen := by
    split <;> omega
  simp only [hk]
  rw [if_neg (show ¬ (List.drop (65535 - b.uncompLen) d = []) by
    intro hnil
    have hlen : (List.drop (65535 - b.uncompLen) d).length = 0 := by
      rw [hnil]; rfl
    rw [List.length_drop] at hlen
    omega)]
  rw [uncompLoop_spec (List.drop (65535 - b.uncompLen) d)
    { b with last := sectionType.uncompressed,
             uncompLen := b.uncompLen + (65535 - b.uncompLen),
             crc := crc32Update b.crc d,
             size := (b.size + d.length) % 2 ^ 32,
             out := (b.out.take (b.uncompHeaderIdx + 1)
               ++ le16 (b.uncompLen + (65535 - b.uncompLen))
               ++ le16 (65535 - (b.uncompLen + (65535 - b.uncompLen)))
               ++ b.out.drop (b.uncompHeaderIdx + 5))
               ++ d.take (65535 - b.uncompLen) } hp]

theorem builder_ext {x y : builder σ}
    (h1 : x.level = y.level) (h2 : x.last = y.last)
    (h3 : x.rawDeflate = y.rawDeflate) (h4 : x.uncompLen = y.uncompLen)
    (h5 : x.uncompHeaderIdx = y.uncompHeaderIdx) (h6 : x.packable = y.packable)
    (h7 : x.out = y.out) (h8 : x.fw = y.fw) (h9 : x.size = y.size)
    (h10 : x.crc = y.crc) (h11 : x.err = y.err) : x = y := by
  cases x
  cases y
  simp_all

/-- The packing merge law: over a back-patchable sink, a second
uncompressed append onto a builder in a clean state coalesces with the
first into a single append of the concatenation. -/
theorem addUncompressedData_merge (E : Encoder σ) (b : builder σ)
    (T d : List Nat) (hT : T ≠ []) (hd : d ≠ []) (he : b.err = none)
    (hs : b.last ≠ .start) (hc : b.last ≠ .compressed)
    (hu : b.last ≠ .uncompressed) (hf : b.last ≠ .finished)
    (hp : b.packable = true) (hr : b.rawDeflate = false) :
    addUncompressedData E (addUncompressedData E b T) d
      = addUncompressedData E b (T ++ d) := by
  rw [addUncompressedData_clean E b T hT he hs hc hu hf hp hr,
    addUncompressedData_clean E b (T ++ d) (by simp [hT]) he hs hc hu hf hp hr]
  have hLle := lastBlockLen_le T
  have hLpos := lastBlockLen_pos T hT
  have hdlen : 1 ≤ d.length := by
    have : d.length ≠ 0 := by simpa using hd
    omega
  have hcrc : crc32Update (crc32Update b.crc T) d = crc32Update b.crc (T ++ d) :=
    crc32Update_assoc b.crc T d
  have hsize : ((b.size + T.length) % 2 ^ 32 + d.length) % 2 ^ 32
      = (b.size + (T ++ d).length) % 2 ^ 32 := by
    rw [List.length_append]
    omega
  by_cases hfull : lastBlockLen T = 65535
  · -- tail block already full: fresh blocks for `d`, streams concatenate
    obtain ⟨hS, hF, hL⟩ := storedBlocks_append_of_full T hfull d hd
    rw [addUncompressedData_uncomp_full E
      { b with
              last := sectionType.uncompressed,
              crc := crc32Update b.crc T,
              size := (b.size + T.length) % 2 ^ 32,
              out := b.out ++ storedBlocks T,
              uncompHeaderIdx := b.out.length + fullBlocksLen T,
              uncompLen := lastBlockLen T } d hd he rfl hp hr hfull]
    refine builder_ext rfl rfl rfl ?_ ?_ rfl ?_ rfl ?_ ?_ rfl
    · exact hL.symm
    · show (b.out ++ storedBlocks T).length + fullBlocksLen d
        = b.out.length + fullBlocksLen (T ++ d)
      rw [hF, List.length_append]
      omega
    · show (b.out ++ storedBlocks T) ++ storedBlocks d
        = b.out ++ storedBlocks (T ++ d)
      rw [hS, List.append_assoc]
    · exact hsize
    · exact hcrc
  · have hlt : lastBlockLen T < 65535 := by omega
    by_cases hfit : d.length ≤ 65535 - lastBlockLen T
    · -- everything fits into the tail block: back-patch only
      obtain ⟨hS, hL, hF⟩ := storedBlocks_extend T d hT hd (by omega)
      rw [addUncompressedData_uncomp_fits E
        { b with
              last := sectionType.uncompressed,
              crc := crc32Update b.crc T,
              size := (b.size + T.length) % 2 ^ 32,
              out := b.out ++ storedBlocks T,
              uncompHeaderIdx := b.out.length + fullBlocksLen T,
              uncompLen := lastBlockLen T } d hd he rfl hp hr hlt hfit]
      refine builder_ext rfl rfl rfl ?_ ?_ rfl ?_ rfl ?_ ?_ rfl
      · exact hL.symm
      · show b.out.length + fullBlocksLen T = b.out.length + fullBlocksLen (T ++ d)
        rw [hF]
      · show ((b.out ++ storedBlocks T).take (b.out.length + fullBlocksLen T + 1)
            ++ le16 (lastBlockLen T + d.length)
            ++ le16 (65535 - (lastBlockLen T + d.length))
            ++ (b.out ++ storedBlocks T).drop (b.out.length + fullBlocksLen T + 5))
            ++ d
          = b.out ++ storedBlocks (T ++ d)
        rw [show b.out.length + fullBlocksLen T + 1
            = b.out.length + (fullBlocksLen T + 1) by omega,
          show b.out.length + fullBlocksLen T + 5
            = b.out.length + (fullBlocksLen T + 5) by omega,
          List.take_append, List.drop_append, ← hS]
        simp [List.append_assoc]
      · exact hsize
      · exact hcrc
    · -- `d` overflows the tail block: patch to full, then fresh blocks
      have hov : 65535 - lastBlockLen T < d.length := by omega
      have hk1 : 1 ≤ 65535 - lastBlockLen T := by omega
      have htkne : d.take (65535 - lastBlockLen T) ≠ [] := by
        intro hnil
        have hlen : (d.take (65535 - lastBlockLen T)).length = 0 := by
          rw [hnil]; rfl
        rw [List.length_take] at hlen
        omega
      have htklen : (d.take (65535 - lastBlockLen T)).length
          = 65535 - lastBlockLen T := by
        rw [List.length_take]
        omega
      obtain ⟨hS, hL, hF⟩ := storedBlocks_extend T (d.take (65535 - lastBlockLen T))
        hT htkne (by omega)
      rw [htklen] at hS hL
      have hfull2 : lastBlockLen (T ++ d.take (65535 - lastBlockLen T)) = 65535 := by
        rw [hL]
        omega
      have hdrne : d.drop (65535 - lastBlockLen T) ≠ [] := by
        intro hnil
        have hlen : (d.drop (65535 - lastBlockLen T)).length = 0 := by
          rw [hnil]; rfl
        rw [List.length_drop] at hlen
        omega
      obtain ⟨hS2, hF2, hL2⟩ := storedBlocks_append_of_full _ hfull2
        (d.drop (65535 - lastBlockLen T)) hdrne
      have hTd : (T ++ d.take (65535 - lastBlockLen T))
          ++ d.drop (65535 - lastBlockLen T) = T ++ d := by
        rw [List.append_assoc, List.take_append_drop]
      rw [hTd] at hS2 hF2 hL2
      rw [addUncompressedData_uncomp_overflow E
        { b with
              last := sectionType.uncompressed,
              crc := crc32Update b.crc T,
              size := (b.size + T.length) % 2 ^ 32,
              out := b.out ++ storedBlocks T,
              uncompHeaderIdx := b.out.length + fullBlocksLen T,
              uncompLen := lastBlockLen T } d he rfl hp hr hlt hov]
      have houtpatch :
          ((b.out ++ storedBlocks T).take (b.out.length + fullBlocksLen T + 1)
            ++ le16 (lastBlockLen T + (65535 - lastBlockLen T))
            ++ le16 (65535 - (lastBlockLen T + (65535 - lastBlockLen T)))
            ++ (b.out ++ storedBlocks T).drop (b.out.length + fullBlocksLen T + 5))
            ++ d.take (65535 - lastBlockLen T)
          = b.out ++ storedBlocks (T ++ d.take (65535 - lastBlockLen T)) := by
        rw [show b.out.length + fullBlocksLen T + 1
            = b.out.length + (fullBlocksLen T + 1) by omega,
          show b.out.length + fullBlocksLen T + 5
            = b.out.length + (fullBlocksLen T + 5) by omega,
          List.take_append, List.drop_append,
          show lastBlockLen T + (65535 - lastBlockLen T)
            = lastBlockLen T + (d.take (65535 - lastBlockLen T)).length by
            rw [htklen],
          ← hS]
        simp [List.append_assoc,
          show (65535 - lastBlockLen T) ⊓ d.length = 65535 - lastBlockLen T from by
            omega]
      refine builder_ext rfl rfl rfl ?_ ?_ rfl ?_ rfl ?_ ?_ rfl
      · exact hL2.symm
      · show (((b.out ++ storedBlocks T).take (b.out.length + fullBlocksLen T + 1)
            ++ le16 (lastBlockLen T + (65535 - lastBlockLen T))
            ++ le16 (65535 - (lastBlockLen T + (65535 - lastBlockLen T)))
            ++ (b.out ++ storedBlocks T).drop (b.out.length + fullBlocksLen T + 5))
            ++ d.take (65535 - lastBlockLen T)).length
            + fullBlocksLen (d.drop (65535 - lastBlockLen T))
          = b.out.length + fullBlocksLen (T ++ d)
        rw [houtpatch, hF2, List.length_append]
        omega
      · show (((b.out ++ storedBlocks T).take (b.out.length + fullBlocksLen T + 1)
            ++ le16 (lastBlockLen T + (65535 - lastBlockLen T))
            ++ le16 (65535 - (lastBlockLen T + (65535 - lastBlockLen T)))
            ++ (b.out ++ storedBlocks T).drop (b.out.length + fullBlocksLen T + 5))
            ++ d.take (65535 - lastBlockLen T))
            ++ storedBlocks (d.drop (65535 - lastBlockLen T))
          = b.out ++ storedBlocks (T ++ d)
        rw [houtpatch, hS2, List.append_assoc]
      · exact hsize
      · exact hcrc

theorem writeHeader_header {b : builder σ} (hst : b.last = .start)
    (he : b.err = none) : (writeHeader b).last = .header := by
  unfold writeHeader
  rw [if_neg (by simp [he, hst])]
  dsimp only
  split <;> rfl

theorem addUncompressedData_start (E : Encoder σ) (b : builder σ)
    (d : List Nat) (hst : b.last = .start) :
    addUncompressedData E b d = addUncompressedData E (writeHeader b) d := by
  by_cases he : b.err = none
  · simp only [addUncompressedData]
    rw [if_pos hst, if_neg (show ¬ ((writeHeader b).last = sectionType.start)
      by simp [writeHeader_header hst he])]
  · rw [addUncompressedData_of_err E he, writeHeader_of_err he,
      addUncompressedData_of_err E he]

theorem finish_start (E : Encoder σ) (b : builder σ) (hst : b.last = .start) :
    finish E b = finish E (writeHeader b) := by
  by_cases he : b.err = none
  · have hwh : (writeHeader b).last = .header := writeHeader_header hst he
    unfold finish
    rw [if_neg (show ¬ (b.last = sectionType.finished) by simp [hst]),
      if_neg (show ¬ ((writeHeader b).last = sectionType.finished) by simp [hwh])]
    dsimp only
    rw [if_neg (show ¬ (b.last = sectionType.compressed) by simp [hst]),
      if_pos hst,
      if_neg (show ¬ ((writeHeader b).last = sectionType.compressed) by simp [hwh]),
      if_neg (show ¬ ((writeHeader b).last = sectionType.start) by simp [hwh])]
  · rw [writeHeader_of_err he]

/-- Folding a run of uncompressed appends onto a clean-state builder
over a back-patchable sink coalesces into a single append. -/
theorem runOps_uncomp_merge (E : Encoder σ) (b : builder σ)
    (he : b.err = none) (hs : b.last ≠ .start) (hc : b.last ≠ .compressed)
    (hu : b.last ≠ .uncompressed) (hf : b.last ≠ .finished)
    (hp : b.packable = true) (hr : b.rawDeflate = false)
    (cs : List (List Nat)) :
    ∀ T : List Nat, T ≠ [] → (∀ c ∈ cs, c ≠ []) →
      runOps E (addUncompressedData E b T) (cs.map .uncomp)
        = addUncompressedData E b (T ++ cs.flatten) := by
  induction cs with
  | nil =>
    intro T _ _
    simp [runOps]
  | cons c cs ih =>
    intro T hT hcs
    have hc1 : c ≠ [] := hcs c (by simp)
    show runOps E (runOp E (addUncompressedData E b T) (.uncomp c))
      (cs.map .uncomp) = _
    show runOps E (addUncompressedData E (addUncompressedData E b T) c)
      (cs.map .uncomp) = _
    rw [addUncompressedData_merge E b T c hT hc1 he hs hc hu hf hp hr,
      ih (T ++ c) (by simp [hT]) (fun x hx => hcs x (by simp [hx])),
      List.append_assoc]
    rfl

/-! ## Claim C2: chunking-independence of uncompressed appends -/

/-- C2: over a back-patchable (`*bytes.Buffer`) sink at a valid level,
appending the chunks of any partition of `B` one at a time via
`AddUncompressedData` and finalising is byte-identical to appending `B`
in one call — in fact `Bytes` agrees exactly. -/
theorem c2_uncompressed_chunking (E : Encoder σ) (level : Int)
    (chunks : List (List Nat)) (hv : validCompressionLevel level = none)
    (hne : ∀ c ∈ chunks, c ≠ []) :
    builderBytes E (runOps E (newBuilder σ true level) (chunks.map .uncomp))
      = builderBytes E
          (addUncompressedData E (newBuilder σ true level) chunks.flatten) := by
  have hst : (newBuilder σ true level).last = .start := rfl
  have he : (newBuilder σ true level).err = none := by
    show validCompressionLevel level = none
    exact hv
  have hWH : writeHeader (newBuilder σ true level)
      = { newBuilder σ true level with
            last := sectionType.header,
            out := gzipHeaderBytes level } := by
    unfold writeHeader
    rw [if_neg (by simp [he, hst])]
    dsimp only
    rw [if_neg (by simp [newBuilder])]
    simp [newBuilder]
  cases chunks with
  | nil =>
    show builderBytes E (newBuilder σ true level)
      = builderBytes E (addUncompressedData E (newBuilder σ true level) [])
    rw [(c9_empty_append_amended E (newBuilder σ true level)).2.1]
    rw [if_pos hst,
      canWrite_of_not_finished (by simp [writeHeader_header hst he])]
    simp only [builderBytes]
    rw [← finish_start E _ hst]
  | cons c cs =>
    have hc1 : c ≠ [] := hne c (by simp)
    show builderBytes E (runOps E
        (runOp E (newBuilder σ true level) (.uncomp c)) (cs.map .uncomp)) = _
    show builderBytes E (runOps E
        (addUncompressedData E (newBuilder σ true level) c) (cs.map .uncomp)) = _
    rw [addUncompressedData_start E _ c hst, hWH]
    rw [runOps_uncomp_merge E _ (by simp [newBuilder, hv]) (by simp) (by simp)
      (by simp) (by simp) (by simp [newBuilder]) (by simp [newBuilder])
      cs c hc1 (fun x hx => hne x (by simp [hx]))]
    show _ = builderBytes E
      (addUncompressedData E (newBuilder σ true level) (c ++ cs.flatten))
    rw [addUncompressedData_start E _ _ hst, hWH]

/-- Witness for C2: the 3-chunk partition of a 6-byte buffer. -/
theorem c2_witness :
    builderBytes unitEncoder (runOps unitEncoder (newBuilder Unit true (-1))
        ([[104], [105, 106], [107, 108, 109]].map .uncomp))
      = builderBytes unitEncoder
          (addUncompressedData unitEncoder (newBuilder Unit true (-1))
            [[104], [105, 106], [107, 108, 109]].flatten) :=
  c2_uncompressed_chunking unitEncoder (-1) [[104], [105, 106], [107, 108, 109]]
    (by decide) (by decide)

theorem storedBlocks_eq_chunks (d : List Nat) :
    storedBlocks d = ((chunks65535 d).map zeroBlock).flatten := by
  induction d using storedBlocks.induct with
  | case1 d hgt ih =>
    rw [storedBlocks, if_pos hgt, chunks65535, if_pos hgt, ih]
    simp
  | case2 d hle =>
    rw [storedBlocks, if_neg hle, chunks65535, if_neg hle]
    simp

theorem chunks65535_flatten (d : List Nat) : (chunks65535 d).flatten = d := by
  induction d using storedBlocks.induct with
  | case1 d hgt ih =>
    rw [chunks65535, if_pos hgt]
    simp [ih, List.take_append_drop]
  | case2 d hle =>
    rw [chunks65535, if_neg hle]
    simp

theorem chunks65535_bounds (d : List Nat) (hd : d ≠ []) :
    ∀ c ∈ chunks65535 d, 1 ≤ c.length ∧ c.length ≤ 65535 := by
  induction d using storedBlocks.induct with
  | case1 d hgt ih =>
    rw [chunks65535, if_pos hgt]
    intro c hc
    rcases List.mem_cons.mp hc with h | h
    · subst h
      rw [List.length_take]
      omega
    · refine ih ?_ c h
      intro hnil
      have hlen : (List.drop 65535 d).length = 0 := by rw [hnil]; rfl
      rw [List.length_drop] at hlen
      omega
  | case2 d hle =>
    rw [chunks65535, if_neg hle]
    intro c hc
    rcases List.mem_cons.mp hc with h | h
    · have hd0 : d.length ≠ 0 := by simpa using hd
      rw [h]
      omega
    · cases h

theorem chunks65535_ne_nil (d : List Nat) : chunks65535 d ≠ [] := by
  rw [chunks65535]
  split <;> simp

theorem chunks65535_dropLast (d : List Nat) :
    ∀ c ∈ (chunks65535 d).dropLast, c.length = 65535 := by
  induction d using storedBlocks.induct with
  | case1 d hgt ih =>
    rw [chunks65535, if_pos hgt]
    rw [List.dropLast_cons_of_ne_nil (chunks65535_ne_nil _)]
    intro c hc
    rcases List.mem_cons.mp hc with h | h
    · subst h
      rw [List.length_take]
      omega
    · exact ih c h
  | case2 d hle =>
    rw [chunks65535, if_neg hle]
    simp

/-! ## Claim C4: stored-block layout of uncompressed appends -/

/-- C4: for every non-empty payload, `AddUncompressedData` on a fresh
valid builder writes (after the header) exactly the stored blocks of
the canonical 65535-byte chunking: each chunk is framed as `0x00`,
`LE16(LEN)`, `LE16(~LEN)` and `LEN` literal bytes with `LEN ≤ 65535`,
the chunks concatenate back to the payload, and every chunk except the
last is exactly 65535 bytes. -/
theorem c4_stored_block_layout (E : Encoder σ) (level : Int) (d : List Nat)
    (hv : validCompressionLevel level = none) (hd : d ≠ []) :
    (addUncompressedData E (newBuilder σ true level) d).out
        = gzipHeaderBytes level ++ ((chunks65535 d).map zeroBlock).flatten
    ∧ (chunks65535 d).flatten = d
    ∧ (∀ c ∈ chunks65535 d, 1 ≤ c.length ∧ c.length ≤ 65535
        ∧ zeroBlock c = [0] ++ le16 c.length ++ le16 (65535 - c.length) ++ c)
    ∧ (∀ c ∈ (chunks65535 d).dropLast, c.length = 65535) := by
  have hst : (newBuilder σ true level).last = .start := rfl
  have he : (newBuilder σ true level).err = none := by
    show validCompressionLevel level = none
    exact hv
  have hWH : writeHeader (newBuilder σ true level)
      = { newBuilder σ true level with
            last := sectionType.header,
            out := gzipHeaderBytes level } := by
    unfold writeHeader
    rw [if_neg (by simp [he, hst])]
    dsimp only
    rw [if_neg (by simp [newBuilder])]
    simp [newBuilder]
  refine ⟨?_, chunks65535_flatten d, ?_, chunks65535_dropLast d⟩
  · rw [addUncompressedData_start E _ d hst, hWH,
      addUncompressedData_clean E _ d hd (by simp [newBuilder, hv]) (by simp)
        (by simp) (by simp) (by simp) (by simp [newBuilder])
        (by simp [newBuilder])]
    show gzipHeaderBytes level ++ storedBlocks d = _
    rw [storedBlocks_eq_chunks]
  · intro c hc
    obtain ⟨h1, h2⟩ := chunks65535_bounds d hd c hc
    refine ⟨h1, h2, ?_⟩
    unfold zeroBlock
    rw [Nat.mod_eq_of_lt (by omega)]
    rfl

/-- Witness for C4: a 3-byte payload at the default level. -/
theorem c4_witness :
    (addUncompressedData unitEncoder (newBuilder Unit true (-1))
        [104, 105, 106]).out
      = gzipHeaderBytes (-1)
        ++ ((chunks65535 [104, 105, 106]).map zeroBlock).flatten :=
  (c4_stored_block_layout unitEncoder (-1) [104, 105, 106] (by decide)
    (by decide)).1

/-! ## Field tracking through each append, for the running invariants -/

theorem addCompressedData_fields (E : Encoder σ) (b : builder σ) (d : List Nat)
    (he : b.err = none) (hf : b.last ≠ .finished) :
    (addCompressedData E b d).err = none
    ∧ (addCompressedData E b d).last ≠ .finished
    ∧ (addCompressedData E b d).rawDeflate = b.rawDeflate
    ∧ (addCompressedData E b d).level = b.level
    ∧ (addCompressedData E b d).crc
        = (if b.rawDeflate = true ∨ d = [] then b.crc else crc32Update b.crc d)
    ∧ (addCompressedData E b d).size
        = (if b.rawDeflate = true ∨ d = []
           then b.size else (b.size + d.length) % 2 ^ 32) := by
  by_cases hd : d = [] <;>
    cases hlast : b.last <;>
      cases hraw : b.rawDeflate <;>
        cases hfw : b.fw <;>
          simp_all [addCompressedData, writeHeader, canWrite]

theorem uncompLoop_fields (b2 : builder σ) (d2 : List Nat) :
    (uncompLoop b2 d2).err = b2.err
    ∧ (uncompLoop b2 d2).last = b2.last
    ∧ (uncompLoop b2 d2).rawDeflate = b2.rawDeflate
    ∧ (uncompLoop b2 d2).level = b2.level
    ∧ (uncompLoop b2 d2).crc = b2.crc
    ∧ (uncompLoop b2 d2).size = b2.size := by
  by_cases hp : b2.packable = true
  · rw [uncompLoop_spec d2 b2 hp]
    exact ⟨rfl, rfl, rfl, rfl, rfl, rfl⟩
  · rw [uncompLoop_spec_stream d2 b2 (by simpa using hp)]
    exact ⟨rfl, rfl, rfl, rfl, rfl, rfl⟩

theorem packUncompressed_fields (b2 : builder σ) (d2 : List Nat) :
    (packUncompressed b2 d2).1.err = b2.err
    ∧ (packUncompressed b2 d2).1.last = b2.last
    ∧ (packUncompressed b2 d2).1.rawDeflate = b2.rawDeflate
    ∧ (packUncompressed b2 d2).1.level = b2.level
    ∧ (packUncompressed b2 d2).1.crc = b2.crc
    ∧ (packUncompressed b2 d2).1.size = b2.size := by
  unfold packUncompressed
  split
  · exact ⟨rfl, rfl, rfl, rfl, rfl, rfl⟩
  · exact ⟨rfl, rfl, rfl, rfl, rfl, rfl⟩

theorem addUncompressedData_fields (E : Encoder σ) (b : builder σ)
    (d : List Nat) (he : b.err = none) (hf : b.last ≠ .finished) :
    (addUncompressedData E b d).err = none
    ∧ (addUncompressedData E b d).last ≠ .finished
    ∧ (addUncompressedData E b d).rawDeflate = b.rawDeflate
    ∧ (addUncompressedData E b d).level = b.level
    ∧ (addUncompressedData E b d).crc
        = (if b.rawDeflate = true ∨ d = [] then b.crc else crc32Update b.crc d)
    ∧ (addUncompressedData E b d).size
        = (if b.rawDeflate = true ∨ d = []
           then b.size else (b.size + d.length) % 2 ^ 32) := by
  have hwu := fun (b2 : builder σ) (d2 : List Nat) => uncompLoop_fields b2 d2
  have hpk := fun (b2 : builder σ) (d2 : List Nat) =>
    packUncompressed_fields b2 d2
  by_cases hd : d = [] <;>
    cases hlast : b.last <;>
      cases hraw : b.rawDeflate <;>
        cases hfw : b.fw <;>
          (simp_all [addUncompressedData, writeHeader, canWrite, flushCompressed,
            packUncompressedData] <;>
            (try split) <;>
            simp_all)


theorem addPrecompressedData_fields (E : Encoder σ) (b : builder σ)
    (data : PrecompressedData) (he : b.err = none) (hf : b.last ≠ .finished)
    (hl : b.level = data.level) :
    (addPrecompressedData E b data).err = none
    ∧ (addPrecompressedData E b data).last ≠ .finished
    ∧ (addPrecompressedData E b data).rawDeflate = b.rawDeflate
    ∧ (addPrecompressedData E b data).level = b.level
    ∧ (addPrecompressedData E b data).crc
        = (if b.rawDeflate = true ∨ data.size = 0 then b.crc
           else combineCRC32 crc32Mat b.crc data.crc data.size)
    ∧ (addPrecompressedData E b data).size
        = (if b.rawDeflate = true ∨ data.size = 0 then b.size
           else (b.size + data.size % 2 ^ 32) % 2 ^ 32) := by
  by_cases hs : data.size = 0 <;>
    cases hlast : b.last <;>
      cases hraw : b.rawDeflate <;>
        cases hfw : b.fw <;>
          simp_all [addPrecompressedData, writeHeader, canWrite, flushCompressed]


/-! ## The running crc/isize invariant (C1) -/

theorem runOps_invariant (E : Encoder σ) (ops : List Op) :
    ∀ (b : builder σ) (T : List Nat), b.err = none → b.last ≠ .finished →
    b.rawDeflate = false → b.crc = crc32 T → b.size = T.length % 2 ^ 32 →
    (∀ op ∈ ops, opHonest op) →
    (∀ seg p, Op.precomp seg p ∈ ops → seg.level = b.level) →
    (runOps E b ops).err = none
    ∧ (runOps E b ops).last ≠ .finished
    ∧ (runOps E b ops).rawDeflate = false
    ∧ (runOps E b ops).level = b.level
    ∧ (runOps E b ops).crc = crc32 (T ++ opsPayload ops)
    ∧ (runOps E b ops).size = (T ++ opsPayload ops).length % 2 ^ 32 := by
  induction ops with
  | nil =>
    intro b T he hf hraw hcrc hsize hhon hlev
    simp [runOps, opsPayload, he, hf, hraw, hcrc, hsize]
  | cons op ops ih =>
    intro b T he hf hraw hcrc hsize hhon hlev
    have hstep : (runOp E b op).err = none
        ∧ (runOp E b op).last ≠ .finished
        ∧ (runOp E b op).rawDeflate = false
        ∧ (runOp E b op).level = b.level
        ∧ (runOp E b op).crc = crc32 (T ++ opPayload op)
        ∧ (runOp E b op).size = (T ++ opPayload op).length % 2 ^ 32 := by
      cases op with
      | comp d =>
        simp only [runOp]
        obtain ⟨h1, h2, h3, h4, h5, h6⟩ := addCompressedData_fields E b d he hf
        refine ⟨h1, h2, by rw [h3, hraw], h4, ?_, ?_⟩
        · rw [h5]
          by_cases hd : d = []
          · simp [hd, hraw, opPayload, hcrc]
          · rw [if_neg (by simp [hd, hraw]), hcrc, crc32Update_append]
            rfl
        · rw [h6]
          by_cases hd : d = []
          · simp [hd, hraw, opPayload, hsize]
          · rw [if_neg (by simp [hd, hraw]), hsize]
            simp [opPayload, Nat.mod_add_mod, Nat.add_mod_left]
      | uncomp d =>
        simp only [runOp]
        obtain ⟨h1, h2, h3, h4, h5, h6⟩ := addUncompressedData_fields E b d he hf
        refine ⟨h1, h2, by rw [h3, hraw], h4, ?_, ?_⟩
        · rw [h5]
          by_cases hd : d = []
          · simp [hd, hraw, opPayload, hcrc]
          · rw [if_neg (by simp [hd, hraw]), hcrc, crc32Update_append]
            rfl
        · rw [h6]
          by_cases hd : d = []
          · simp [hd, hraw, opPayload, hsize]
          · rw [if_neg (by simp [hd, hraw]), hsize]
            simp [opPayload, Nat.mod_add_mod, Nat.add_mod_left]
      | precomp seg p =>
        simp only [runOp]
        have hl : b.level = seg.level :=
          (hlev seg p (List.mem_cons_self _ _)).symm
        obtain ⟨hc1, hc2, hc3⟩ := hhon (Op.precomp seg p)
          (List.mem_cons_self _ _)
        obtain ⟨h1, h2, h3, h4, h5, h6⟩ :=
          addPrecompressedData_fields E b seg he hf hl
        refine ⟨h1, h2, by rw [h3, hraw], h4, ?_, ?_⟩
        · rw [h5]
          by_cases hp0 : seg.size = 0
          · have hpnil : p = [] := by
              rw [hc2] at hp0
              exact List.length_eq_zero.mp hp0
            simp [hp0, hraw, opPayload, hpnil, hcrc]
          · rw [if_neg (by simp [hp0, hraw]), hcrc, hc1, hc2,
              combineCRC32_crc32 T p hc3]
            rfl
        · rw [h6]
          by_cases hp0 : seg.size = 0
          · have hpnil : p = [] := by
              rw [hc2] at hp0
              exact List.length_eq_zero.mp hp0
            simp [hp0, hraw, opPayload, hpnil, hsize]
          · rw [if_neg (by simp [hp0, hraw]), hsize, hc2]
            simp [opPayload, Nat.mod_add_mod, Nat.add_mod_left, Nat.add_mod]
    obtain ⟨h1, h2, h3, h4, h5, h6⟩ := hstep
    have hrest := ih (runOp E b op) (T ++ opPayload op) h1 h2 h3 h5 h6
      (fun o ho => hhon o (List.mem_cons_of_mem _ ho))
      (fun seg p hm => by
        rw [h4]
        exact hlev seg p (List.mem_cons_of_mem _ hm))
    have hrun : runOps E b (op :: ops) = runOps E (runOp E b op) ops := rfl
    rw [hrun]
    refine ⟨hrest.1, hrest.2.1, hrest.2.2.1, ?_, ?_, ?_⟩
    · rw [hrest.2.2.2.1, h4]
    · rw [hrest.2.2.2.2.1]
      simp [opsPayload, opPayload, List.append_assoc]
    · rw [hrest.2.2.2.2.2]
      simp [opsPayload, opPayload, List.append_assoc]


/-- C1: In non-raw mode, for every error-free sequence of compressed,
uncompressed and (honest, level-matching) precompressed appends on a fresh
builder at a valid level, the running `crc` field equals the IEEE CRC32 of the
in-order concatenation of all payload bytes appended so far, and the `size`
field equals that total length mod 2^32; moreover the combiner satisfies
`combineCRC32 crc32Mat (crc32 A) (crc32 B) B.length = crc32 (A ++ B)` whenever
`|B| < 2^64`, so precompressed payloads are folded in without rescanning. -/
theorem c1_crc_size_invariant (E : Encoder σ) (pk : Bool) (level : Int)
    (ops : List Op) (hv : validCompressionLevel level = none)
    (hhon : ∀ op ∈ ops, opHonest op)
    (hlev : ∀ seg p, Op.precomp seg p ∈ ops → seg.level = level) :
    (runOps E (newBuilder σ pk level) ops).err = none
    ∧ (runOps E (newBuilder σ pk level) ops).crc = crc32 (opsPayload ops)
    ∧ (runOps E (newBuilder σ pk level) ops).size
        = (opsPayload ops).length % 2 ^ 32
    ∧ ∀ A B : List Nat, B.length < 2 ^ 64 →
        combineCRC32 crc32Mat (crc32 A) (crc32 B) B.length = crc32 (A ++ B) := by
  have h := runOps_invariant E ops (newBuilder σ pk level) []
    (by simp [newBuilder, hv]) (by simp [newBuilder]) (by simp [newBuilder])
    (by simp [newBuilder, crc32, crc32Update])
    (by simp [newBuilder])
    hhon
    (by
      intro seg p hm
      simpa [newBuilder] using hlev seg p hm)
  refine ⟨h.1, ?_, ?_, fun A B hB => combineCRC32_crc32 A B hB⟩
  · simpa using h.2.2.2.2.1
  · simpa using h.2.2.2.2.2

/-- Witness for C1: a three-op sequence (uncompressed, compressed,
precompressed) at the default level, plus a concrete combiner instance. -/
theorem c1_witness :
    (runOps unitEncoder (newBuilder Unit true (-1))
        [Op.uncomp [10, 20], Op.comp [30],
         Op.precomp ⟨-1, [99], 2, crc32 [7, 8]⟩ [7, 8]]).crc
      = crc32 [10, 20, 30, 7, 8]
    ∧ (runOps unitEncoder (newBuilder Unit true (-1))
        [Op.uncomp [10, 20], Op.comp [30],
         Op.precomp ⟨-1, [99], 2, crc32 [7, 8]⟩ [7, 8]]).size = 5 % 2 ^ 32
    ∧ combineCRC32 crc32Mat (crc32 [1]) (crc32 [2, 3]) 2 = crc32 [1, 2, 3] := by
  have h := c1_crc_size_invariant unitEncoder true (-1)
    [Op.uncomp [10, 20], Op.comp [30],
     Op.precomp ⟨-1, [99], 2, crc32 [7, 8]⟩ [7, 8]]
    (by decide)
    (by
      intro op hop
      simp only [List.mem_cons, List.not_mem_nil, or_false] at hop
      rcases hop with h | h | h <;> subst h
      · exact trivial
      · exact trivial
      · exact ⟨rfl, rfl, by decide⟩)
    (by
      intro seg p hm
      simp only [List.mem_cons, List.not_mem_nil, or_false] at hm
      rcases hm with h | h | h <;> simp_all)
  refine ⟨?_, ?_, h.2.2.2 [1] [2, 3] (by decide)⟩
  · simpa [opsPayload, opPayload] using h.2.1
  · simpa [opsPayload, opPayload] using h.2.2.1


/-! ## Raw-deflate mode invariants (C8) -/

theorem addCompressedData_raw (E : Encoder σ) (b : builder σ) (d : List Nat)
    (h : b.rawDeflate = true) :
    (addCompressedData E b d).rawDeflate = true
    ∧ (addCompressedData E b d).crc = b.crc
    ∧ (addCompressedData E b d).size = b.size
    ∧ ((addCompressedData E b d).last = .finished → b.last = .finished) := by
  cases herr : b.err <;> by_cases hd : d = [] <;>
    cases hlast : b.last <;> cases hfw : b.fw <;>
      simp_all [addCompressedData, writeHeader, canWrite]

theorem addUncompressedData_raw (E : Encoder σ) (b : builder σ) (d : List Nat)
    (h : b.rawDeflate = true) :
    (addUncompressedData E b d).rawDeflate = true
    ∧ (addUncompressedData E b d).crc = b.crc
    ∧ (addUncompressedData E b d).size = b.size
    ∧ ((addUncompressedData E b d).last = .finished → b.last = .finished) := by
  have hwu := fun (b2 : builder σ) (d2 : List Nat) => uncompLoop_fields b2 d2
  have hpk := fun (b2 : builder σ) (d2 : List Nat) =>
    packUncompressed_fields b2 d2
  cases herr : b.err <;> by_cases hd : d = [] <;>
    cases hlast : b.last <;> cases hfw : b.fw <;>
      (simp_all [addUncompressedData, writeHeader, canWrite, flushCompressed,
        packUncompressedData] <;>
        (try split) <;>
        simp_all)

theorem addPrecompressedData_raw (E : Encoder σ) (b : builder σ)
    (seg : PrecompressedData) (h : b.rawDeflate = true) :
    (addPrecompressedData E b seg).rawDeflate = true
    ∧ (addPrecompressedData E b seg).crc = b.crc
    ∧ (addPrecompressedData E b seg).size = b.size
    ∧ ((addPrecompressedData E b seg).last = .finished
        → b.last = .finished) := by
  cases herr : b.err <;> by_cases hs : seg.size = 0 <;>
    by_cases hl : b.level = seg.level <;>
      cases hlast : b.last <;> cases hfw : b.fw <;>
        simp_all [addPrecompressedData, writeHeader, canWrite, flushCompressed]

theorem runOps_raw (E : Encoder σ) (ops : List Op) :
    ∀ b : builder σ, b.rawDeflate = true →
    (runOps E b ops).rawDeflate = true
    ∧ (runOps E b ops).crc = b.crc
    ∧ (runOps E b ops).size = b.size
    ∧ ((runOps E b ops).last = .finished → b.last = .finished) := by
  induction ops with
  | nil =>
    intro b h
    exact ⟨h, rfl, rfl, fun hx => hx⟩
  | cons op ops ih =>
    intro b h
    have hstep : (runOp E b op).rawDeflate = true
        ∧ (runOp E b op).crc = b.crc
        ∧ (runOp E b op).size = b.size
        ∧ ((runOp E b op).last = .finished → b.last = .finished) := by
      cases op with
      | comp d => exact addCompressedData_raw E b d h
      | uncomp d => exact addUncompressedData_raw E b d h
      | precomp seg p => exact addPrecompressedData_raw E b seg h
    have hrest := ih (runOp E b op) hstep.1
    exact ⟨hrest.1, hrest.2.1.trans hstep.2.1, hrest.2.2.1.trans hstep.2.2.1,
      fun hx => hstep.2.2.2 (hrest.2.2.2 hx)⟩

theorem finish_out_raw (E : Encoder σ) (b : builder σ)
    (h : b.rawDeflate = true) (hf : b.last ≠ .finished) :
    (finish E b).out
      = b.out ++ (if b.err = none
          then (if b.last = .compressed
                then (match b.fw with
                      | some s => (E.close s).2
                      | none => [])
                else closeFooter)
          else []) := by
  cases herr : b.err <;> cases hlast : b.last <;> cases hfw : b.fw <;>
    simp_all [finish, writeHeader]


/-- C8: With raw deflate enabled on a fresh builder at a valid level, `crc`
and `size` stay 0 through every sequence of appends and through finalise; the
header writer emits nothing in raw mode, and finalise appends only DEFLATE
stream material (the encoder close output or the final empty stored block),
never the 8-byte CRC/ISIZE footer: the finalised output is the DEFLATE stream
alone. -/
theorem c8_raw_mode (E : Encoder σ) (pk : Bool) (level : Int) (ops : List Op)
    (hv : validCompressionLevel level = none) :
    (runOps E (setRawDeflate (newBuilder σ pk level)) ops).crc = 0
    ∧ (runOps E (setRawDeflate (newBuilder σ pk level)) ops).size = 0
    ∧ (finish E (runOps E (setRawDeflate (newBuilder σ pk level)) ops)).crc = 0
    ∧ (finish E (runOps E (setRawDeflate (newBuilder σ pk level)) ops)).size
        = 0
    ∧ (∀ b : builder σ, b.rawDeflate = true → (writeHeader b).out = b.out)
    ∧ (finish E (runOps E (setRawDeflate (newBuilder σ pk level)) ops)).out
        = (runOps E (setRawDeflate (newBuilder σ pk level)) ops).out
          ++ (if (runOps E (setRawDeflate (newBuilder σ pk level)) ops).err
                  = none
              then (if (runOps E (setRawDeflate (newBuilder σ pk level))
                          ops).last = .compressed
                    then (match (runOps E (setRawDeflate (newBuilder σ pk
                            level)) ops).fw with
                          | some s => (E.close s).2
                          | none => [])
                    else closeFooter)
              else []) := by
  have hb0raw : (setRawDeflate (newBuilder σ pk level)).rawDeflate = true := by
    simp [setRawDeflate, canSetOption, newBuilder, hv]
  have hcrc0 : (setRawDeflate (newBuilder σ pk level)).crc = 0 := by
    simp [setRawDeflate, canSetOption, newBuilder, hv]
  have hsize0 : (setRawDeflate (newBuilder σ pk level)).size = 0 := by
    simp [setRawDeflate, canSetOption, newBuilder, hv]
  have h := runOps_raw E ops (setRawDeflate (newBuilder σ pk level)) hb0raw
  have hnf : (runOps E (setRawDeflate (newBuilder σ pk level)) ops).last
      ≠ .finished := by
    intro hx
    have hlast := h.2.2.2 hx
    simp [setRawDeflate, canSetOption, newBuilder, hv] at hlast
  refine ⟨h.2.1.trans hcrc0, h.2.2.1.trans hsize0,
    (finish_crc E _).trans (h.2.1.trans hcrc0),
    (finish_size E _).trans (h.2.2.1.trans hsize0),
    ?_, finish_out_raw E _ h.1 hnf⟩
  intro b hb
  unfold writeHeader
  split
  · rfl
  · simp [hb]

/-- Witness for C8: one compressed append in raw mode at the default level. -/
theorem c8_witness :
    (runOps unitEncoder (setRawDeflate (newBuilder Unit true (-1)))
        [Op.comp [1, 2]]).crc = 0
    ∧ (finish unitEncoder (runOps unitEncoder
        (setRawDeflate (newBuilder Unit true (-1))) [Op.comp [1, 2]])).size = 0
    ∧ (writeHeader (setRawDeflate (newBuilder Unit true (-1)))).out = [] := by
  have h := c8_raw_mode unitEncoder true (-1) [Op.comp [1, 2]] (by decide)
  exact ⟨h.1, h.2.2.2.1,
    (h.2.2.2.2.1 (setRawDeflate (newBuilder Unit true (-1)))
      (by decide)).trans rfl⟩

end gzipbuilder
